import Mathlib

/-!
Shallow embedding of `csim.c`, a set-associative cache simulator with LRU
replacement and write-back/write-allocate dirty accounting, together with
proofs of the specification's claims about it.

The C program's mutable state (the cache's line array and five global
counters) is modelled by explicit state passing: a cache set is a
`List line_t`, the whole cache a `cache_t`, and the counters a
`csim_stats` record threaded through every operation.  Machine integers
(`unsigned long`) are modelled by `Nat`; the single subtraction the
program performs (`dirty_bytes -= B`) is `Nat` subtraction, and the
conservation invariant proved below shows it never underflows on any
reachable state, so the model agrees with the C unsigned semantics there.
-/

set_option autoImplicit false
set_option maxRecDepth 8000

namespace CacheLab

/-- Line structure of a set: `line_t` in `csim.c` (valid bit, dirty bit,
tag, LRU counter). -/
structure line_t where
  valid : Bool
  dirty_bit : Bool
  tag : Nat
  LRU_counter : Nat
  deriving Repr, DecidableEq

/-- Initial value of every line installed by `cache_init`:
`valid = 0, dirty_bit = 0, tag = 0, LRU_counter = 0`. -/
def line0 : line_t := ⟨false, false, 0, 0⟩

/-- The five global counters of `csim.c` (`hit`, `miss`, `eviction`,
`dirty_bytes`, `dirty_evictions`), gathered into one record. -/
structure csim_stats where
  hit : Nat
  miss : Nat
  eviction : Nat
  dirty_bytes : Nat
  dirty_evictions : Nat
  deriving Repr, DecidableEq

/-- All counters start at zero (the C globals' initializers). -/
def stats0 : csim_stats := ⟨0, 0, 0, 0, 0⟩

/-- Increment a line's LRU counter (`line->LRU_counter++`). -/
def bump (l : line_t) : line_t := { l with LRU_counter := l.LRU_counter + 1 }

/-- Read the line at index `i` of a set (array indexing
`set_access->lines[i]`; indices used by the program are always in
bounds, so the default is never reached on the program's executions). -/
def nth (ls : List line_t) (i : Nat) : line_t := ls.getD i line0

/-- Worker for `add_LRU_counter`, carrying the index of the head of the
remaining list. -/
def add_LRU_go (b e : Nat) : Nat → List line_t → List line_t
  | _, [] => []
  | i, l :: ls => (if b ≤ i ∧ i < e then bump l else l) :: add_LRU_go b e (i + 1) ls

/-- The helper `add_LRU_counter(set_access, begin_index, end_index)` of
`csim.c`: increment the LRU counter of every line with index in
`[begin_index, end_index)`. -/
def add_LRU_counter (set_access : List line_t) (begin_index end_index : Nat) : List line_t :=
  add_LRU_go begin_index end_index 0 set_access

/-- Apply `f` to the line at index `i`, leaving the rest of the set
unchanged (in-place field assignment to `set_access->lines[i]`). -/
def update_at (f : line_t → line_t) : Nat → List line_t → List line_t
  | _, [] => []
  | 0, l :: ls => f l :: ls
  | i + 1, l :: ls => l :: update_at f i ls

/-- The first loop of `cache_sim` (the hit scan): walk the set in index
order; every examined non-matching line gets its LRU counter
incremented; on the first line with `tag == line->tag && valid == 1` the
loop breaks, setting that line's LRU counter to 0 and recording its
index.  Returns the updated lines and the hit index when a hit
occurred. -/
def hit_scan (tag : Nat) : List line_t → List line_t × Option Nat
  | [] => ([], none)
  | l :: ls =>
    if l.tag = tag ∧ l.valid = true then
      ({ l with LRU_counter := 0 } :: ls, some 0)
    else
      let r := hit_scan tag ls
      (bump l :: r.1, r.2.map (· + 1))

/-- The second loop of `cache_sim` (the empty-slot scan on a miss): walk
the set in index order; every examined valid line gets its LRU counter
incremented; on the first invalid line the loop breaks, installing
`valid = 1, tag, LRU_counter = 0` and recording the index. -/
def fill_scan (tag : Nat) : List line_t → List line_t × Option Nat
  | [] => ([], none)
  | l :: ls =>
    if l.valid = false then
      ({ l with valid := true, tag := tag, LRU_counter := 0 } :: ls, some 0)
    else
      let r := fill_scan tag ls
      (bump l :: r.1, r.2.map (· + 1))

/-- Worker for the victim-selection loop, carrying the fixed comparison
value `m` (the C code's `max_counter`, read once from line 0 and never
updated), the index of the head of the remaining list, and the current
`evict_index` accumulator. -/
def victim_go (m : Nat) : Nat → Nat → List line_t → Nat
  | _, acc, [] => acc
  | i, acc, l :: ls => victim_go m (i + 1) (if m < l.LRU_counter then i else acc) ls

/-- The victim-selection loop of `cache_sim`:
`evict_index = 0; max_counter = lines[0].LRU_counter;` then for
`i = 1 .. E-1`, `if (lines[i].LRU_counter > max_counter) evict_index = i;`.
Note `max_counter` is never updated inside the loop. -/
def find_victim : List line_t → Nat
  | [] => 0
  | l0 :: rest => victim_go l0.LRU_counter 1 0 rest

/-- The core routine `cache_sim(access_type, set_access, tag, E, b)` of
`csim.c`, with the touched set and the five counters passed and
returned explicitly.  The loop bound `E` of the C code equals the
length of the set list, which the driver maintains. -/
def cache_sim (access_type : Char) (set_access : List line_t) (tag : Nat) (b : Nat)
    (st : csim_stats) : List line_t × csim_stats :=
  let B := 2 ^ b
  let scan1 := hit_scan tag set_access
  match scan1.2 with
  | some hit_index =>
    let st1 := { st with hit := st.hit + 1 }
    let lines2 := add_LRU_counter scan1.1 (hit_index + 1) scan1.1.length
    if access_type = 'S' ∧ (nth lines2 hit_index).dirty_bit = false then
      (update_at (fun l => { l with dirty_bit := true }) hit_index lines2,
        { st1 with dirty_bytes := st1.dirty_bytes + B })
    else
      (lines2, st1)
  | none =>
    let st1 := { st with miss := st.miss + 1 }
    let scan2 := fill_scan tag scan1.1
    match scan2.2 with
    | some index =>
      let lines3 := add_LRU_counter scan2.1 (index + 1) scan2.1.length
      if access_type = 'S' then
        (update_at (fun l => { l with dirty_bit := true }) index lines3,
          { st1 with dirty_bytes := st1.dirty_bytes + B })
      else
        (lines3, st1)
    | none =>
      let st2 := { st1 with eviction := st1.eviction + 1 }
      let ei := find_victim scan2.1
      let lines3 := update_at (fun l => { l with tag := tag, LRU_counter := 0 }) ei scan2.1
      let lines4 := add_LRU_counter (add_LRU_counter lines3 0 ei) (ei + 1) lines3.length
      if (nth lines4 ei).dirty_bit = false ∧ access_type = 'S' then
        (update_at (fun l => { l with dirty_bit := true }) ei lines4,
          { st2 with dirty_bytes := st2.dirty_bytes + B })
      else if (nth lines4 ei).dirty_bit = true then
        if access_type = 'L' then
          (update_at (fun l => { l with dirty_bit := false }) ei lines4,
            { st2 with dirty_bytes := st2.dirty_bytes - B,
                       dirty_evictions := st2.dirty_evictions + B })
        else if access_type = 'S' then
          (lines4, { st2 with dirty_evictions := st2.dirty_evictions + B })
        else
          (lines4, st2)
      else
        (lines4, st2)

/-- Cache structure of `csim.c`: the geometry `(s, E, b)` and the
`2^s` sets of `E` lines each. -/
structure cache_t where
  s : Nat
  E : Nat
  b : Nat
  sets : List (List line_t)
  deriving Repr, DecidableEq

/-- The constructor `cache_init(s, E, b)`: `2^s` sets of `E` lines, every
line initialized invalid, clean, zero tag, zero LRU counter. -/
def cache_init (s E b : Nat) : cache_t :=
  { s := s, E := E, b := b,
    sets := List.replicate (2 ^ s) (List.replicate E line0) }

/-- One parsed trace record: `<kind> <address>,<size>` with
`kind ∈ {L, S}` for well-formed records. -/
structure AccessRecord where
  kind : Char
  address : Nat
  size : Nat
  deriving Repr, DecidableEq

/-- Address decode in `main`: `set_index = (address >> b) & ((1 << s) - 1)`. -/
def set_index_of (address b s : Nat) : Nat := (address / 2 ^ b) % 2 ^ s

/-- Address decode in `main`: `tag = address >> (s + b)`. -/
def tag_of (address b s : Nat) : Nat := address / 2 ^ (s + b)

/-- One iteration of the trace loop of `main`: records whose kind is
`L` or `S` are decoded and fed to `cache_sim`; any other kind makes the
program print `Tracefile error` and return `-1` (modelled by `none`). -/
def process_record (cache : cache_t) (st : csim_stats) (r : AccessRecord) :
    Option (cache_t × csim_stats) :=
  if r.kind = 'L' ∨ r.kind = 'S' then
    let set_index := set_index_of r.address cache.b cache.s
    let tg := tag_of r.address cache.b cache.s
    let res := cache_sim r.kind (cache.sets.getD set_index []) tg cache.b st
    some ({ cache with sets := cache.sets.set set_index res.1 }, res.2)
  else
    none

/-- The trace loop of `main`: process records strictly in order,
halting with `none` at the first malformed record. -/
def run_trace (cache : cache_t) (st : csim_stats) :
    List AccessRecord → Option (cache_t × csim_stats)
  | [] => some (cache, st)
  | r :: rs =>
    match process_record cache st r with
    | some p => run_trace p.1 p.2 rs
    | none => none

/-- A whole run of `main` on an already-parsed trace: build the cache
with `cache_init`, replay the trace, and report the final statistics;
`none` when the run halts on a malformed record (no statistics are
printed in that case). -/
def run_sim (s E b : Nat) (trace : List AccessRecord) : Option csim_stats :=
  (run_trace (cache_init s E b) stats0 trace).map (fun p => p.2)

/-- Number of dirty bytes one line accounts for: the block size `B = 2^b`
when the line is currently valid and dirty, else 0. -/
def line_dirty_bytes (B : Nat) (l : line_t) : Nat :=
  if l.valid = true ∧ l.dirty_bit = true then B else 0

/-- The sum of block sizes over the currently-dirty, currently-valid lines
of one set: the independently recomputed reference value for the
`dirty_bytes` counter. -/
def set_dirty_sum (B : Nat) (ls : List line_t) : Nat :=
  (ls.map (line_dirty_bytes B)).sum

/-- The same reference value over the whole cache. -/
def cache_dirty_sum (c : cache_t) : Nat :=
  (c.sets.map (set_dirty_sum (2 ^ c.b))).sum

/-- Every invalid line of a set is clean (holds for all reachable sets:
lines are created invalid and clean, and the dirty bit is only ever set
on valid lines). -/
def clean_inv (ls : List line_t) : Prop :=
  ∀ (j : Nat) (l : line_t), ls[j]? = some l → l.valid = false → l.dirty_bit = false

/-! ### Structural lemmas about the set-level operations -/

theorem nth_eq_getD (ls : List line_t) (i : Nat) : nth ls i = ls[i]?.getD line0 := by
  simp [nth, List.getD_eq_getElem?_getD]

theorem hit_scan_length (tag : Nat) (ls : List line_t) :
    (hit_scan tag ls).1.length = ls.length := by
  induction ls with
  | nil => rfl
  | cons l ls ih =>
    simp only [hit_scan]
    split
    · simp
    · simpa using ih

theorem fill_scan_length (tag : Nat) (ls : List line_t) :
    (fill_scan tag ls).1.length = ls.length := by
  induction ls with
  | nil => rfl
  | cons l ls ih =>
    simp only [fill_scan]
    split
    · simp
    · simpa using ih

theorem add_LRU_go_length (b e i : Nat) (ls : List line_t) :
    (add_LRU_go b e i ls).length = ls.length := by
  induction ls generalizing i with
  | nil => rfl
  | cons l ls ih => simpa [add_LRU_go] using ih (i + 1)

theorem add_LRU_counter_length (ls : List line_t) (b e : Nat) :
    (add_LRU_counter ls b e).length = ls.length :=
  add_LRU_go_length b e 0 ls

theorem update_at_length (f : line_t → line_t) (i : Nat) (ls : List line_t) :
    (update_at f i ls).length = ls.length := by
  induction ls generalizing i with
  | nil => cases i <;> rfl
  | cons l ls ih =>
    cases i with
    | zero => simp [update_at]
    | succ i => simpa [update_at] using ih i

theorem add_LRU_go_get (b e : Nat) (ls : List line_t) (i j : Nat) :
    (add_LRU_go b e i ls)[j]? =
      ls[j]?.map (fun l => if b ≤ i + j ∧ i + j < e then bump l else l) := by
  induction ls generalizing i j with
  | nil => simp [add_LRU_go]
  | cons l ls ih =>
    cases j with
    | zero => simp [add_LRU_go]
    | succ j =>
      have h := ih (i + 1) j
      have e1 : i + 1 + j = i + (j + 1) := by omega
      rw [e1] at h
      simpa [add_LRU_go] using h

theorem add_LRU_counter_get (ls : List line_t) (b e j : Nat) :
    (add_LRU_counter ls b e)[j]? =
      ls[j]?.map (fun l => if b ≤ j ∧ j < e then bump l else l) := by
  simpa using add_LRU_go_get b e ls 0 j

theorem update_at_get (f : line_t → line_t) (i : Nat) (ls : List line_t) (j : Nat) :
    (update_at f i ls)[j]? = if i = j then ls[j]?.map f else ls[j]? := by
  induction ls generalizing i j with
  | nil => simp [update_at]
  | cons l ls ih =>
    cases i with
    | zero =>
      cases j with
      | zero => simp [update_at]
      | succ j => simp [update_at]
    | succ i =>
      cases j with
      | zero => simp [update_at]
      | succ j => simpa [update_at, Nat.succ_inj] using ih i j

theorem hit_scan_none_get (tag : Nat) (ls : List line_t)
    (h : (hit_scan tag ls).2 = none) (j : Nat) :
    (hit_scan tag ls).1[j]? = ls[j]?.map bump := by
  induction ls generalizing j with
  | nil => simp [hit_scan]
  | cons l ls ih =>
    by_cases hm : l.tag = tag ∧ l.valid = true
    · simp [hit_scan, hm] at h
    · have h' : (hit_scan tag ls).2 = none := by
        simpa [hit_scan, hm, Option.map_eq_none'] using h
      cases j with
      | zero => simp [hit_scan, hm]
      | succ j => simpa [hit_scan, hm] using ih h' j

theorem hit_scan_some_get (tag : Nat) (ls : List line_t) (i : Nat)
    (h : (hit_scan tag ls).2 = some i) :
    i < ls.length ∧
    (∀ j, j < i → (hit_scan tag ls).1[j]? = ls[j]?.map bump) ∧
    (hit_scan tag ls).1[i]? = ls[i]?.map (fun l => { l with LRU_counter := 0 }) ∧
    (∀ j, i < j → (hit_scan tag ls).1[j]? = ls[j]?) ∧
    (∃ l, ls[i]? = some l ∧ l.tag = tag ∧ l.valid = true) := by
  induction ls generalizing i with
  | nil => simp [hit_scan] at h
  | cons l ls ih =>
    by_cases hm : l.tag = tag ∧ l.valid = true
    · have hi : i = 0 := by simpa [hit_scan, hm] using h.symm
      subst hi
      refine ⟨by simp, fun j hj => absurd hj (Nat.not_lt_zero j), ?_, ?_, ?_⟩
      · simp [hit_scan, hm]
      · intro j hj
        cases j with
        | zero => exact absurd hj (lt_irrefl 0)
        | succ j => simp [hit_scan, hm]
      · exact ⟨l, by simp, hm.1, hm.2⟩
    · have h' : ∃ i', (hit_scan tag ls).2 = some i' ∧ i' + 1 = i := by
        simpa [hit_scan, hm, Option.map_eq_some'] using h
      obtain ⟨i', hi', rfl⟩ := h'
      obtain ⟨ih1, ih2, ih3, ih4, ih5⟩ := ih i' hi'
      refine ⟨by simpa using Nat.succ_lt_succ ih1, ?_, ?_, ?_, ?_⟩
      · intro j hj
        cases j with
        | zero => simp [hit_scan, hm]
        | succ j => simpa [hit_scan, hm] using ih2 j (Nat.lt_of_succ_lt_succ hj)
      · simpa [hit_scan, hm] using ih3
      · intro j hj
        cases j with
        | zero => exact absurd hj (Nat.not_lt_zero _)
        | succ j => simpa [hit_scan, hm] using ih4 j (Nat.lt_of_succ_lt_succ hj)
      · obtain ⟨w, hw, hw1, hw2⟩ := ih5
        exact ⟨w, by simpa using hw, hw1, hw2⟩

theorem fill_scan_none_get (tag : Nat) (ls : List line_t)
    (h : (fill_scan tag ls).2 = none) (j : Nat) :
    (fill_scan tag ls).1[j]? = ls[j]?.map bump := by
  induction ls generalizing j with
  | nil => simp [fill_scan]
  | cons l ls ih =>
    by_cases hm : l.valid = false
    · simp [fill_scan, hm] at h
    · have h' : (fill_scan tag ls).2 = none := by
        simpa [fill_scan, hm, Option.map_eq_none'] using h
      cases j with
      | zero => simp [fill_scan, hm]
      | succ j => simpa [fill_scan, hm] using ih h' j

theorem fill_scan_none_valid (tag : Nat) (ls : List line_t)
    (h : (fill_scan tag ls).2 = none) :
    ∀ l ∈ ls, l.valid = true := by
  induction ls with
  | nil => simp
  | cons l ls ih =>
    by_cases hm : l.valid = false
    · simp [fill_scan, hm] at h
    · have h' : (fill_scan tag ls).2 = none := by
        simpa [fill_scan, hm, Option.map_eq_none'] using h
      intro x hx
      rcases List.mem_cons.mp hx with rfl | hx'
      · exact eq_true_of_ne_false hm
      · exact ih h' x hx'

theorem fill_scan_some_get (tag : Nat) (ls : List line_t) (i : Nat)
    (h : (fill_scan tag ls).2 = some i) :
    i < ls.length ∧
    (∀ j, j < i → (fill_scan tag ls).1[j]? = ls[j]?.map bump) ∧
    (fill_scan tag ls).1[i]? =
      ls[i]?.map (fun l => { l with valid := true, tag := tag, LRU_counter := 0 }) ∧
    (∀ j, i < j → (fill_scan tag ls).1[j]? = ls[j]?) ∧
    (∃ l, ls[i]? = some l ∧ l.valid = false) := by
  induction ls generalizing i with
  | nil => simp [fill_scan] at h
  | cons l ls ih =>
    by_cases hm : l.valid = false
    · have hi : i = 0 := by simpa [fill_scan, hm] using h.symm
      subst hi
      refine ⟨by simp, fun j hj => absurd hj (Nat.not_lt_zero j), ?_, ?_, ?_⟩
      · simp [fill_scan, hm]
      · intro j hj
        cases j with
        | zero => exact absurd hj (lt_irrefl 0)
        | succ j => simp [fill_scan, hm]
      · exact ⟨l, by simp, hm⟩
    · have h' : ∃ i', (fill_scan tag ls).2 = some i' ∧ i' + 1 = i := by
        simpa [fill_scan, hm, Option.map_eq_some'] using h
      obtain ⟨i', hi', rfl⟩ := h'
      obtain ⟨ih1, ih2, ih3, ih4, ih5⟩ := ih i' hi'
      refine ⟨by simpa using Nat.succ_lt_succ ih1, ?_, ?_, ?_, ?_⟩
      · intro j hj
        cases j with
        | zero => simp [fill_scan, hm]
        | succ j => simpa [fill_scan, hm] using ih2 j (Nat.lt_of_succ_lt_succ hj)
      · simpa [fill_scan, hm] using ih3
      · intro j hj
        cases j with
        | zero => exact absurd hj (Nat.not_lt_zero _)
        | succ j => simpa [fill_scan, hm] using ih4 j (Nat.lt_of_succ_lt_succ hj)
      · obtain ⟨w, hw, hw1⟩ := ih5
        exact ⟨w, by simpa using hw, hw1⟩

theorem victim_go_lt (m : Nat) (ls : List line_t) (i acc n : Nat)
    (hacc : acc < n) (hlen : i + ls.length ≤ n) : victim_go m i acc ls < n := by
  induction ls generalizing i acc with
  | nil => simpa [victim_go] using hacc
  | cons l ls ih =>
    simp only [victim_go]
    apply ih
    · split
      · simp at hlen; omega
      · exact hacc
    · simp at hlen ⊢; omega

theorem find_victim_lt (ls : List line_t) (h : ls ≠ []) :
    find_victim ls < ls.length := by
  cases ls with
  | nil => exact absurd rfl h
  | cons l0 rest =>
    exact victim_go_lt l0.LRU_counter rest 1 0 (rest.length + 1) (by simp) (by simp [Nat.add_comm])

/-! ### Field-preservation lemmas: the scans and the aging helper touch
only the LRU counters, never the valid bit, dirty bit or tag -/

theorem add_LRU_counter_vdt (ls : List line_t) (b e j : Nat) :
    ((add_LRU_counter ls b e)[j]?).map (fun l => (l.valid, l.dirty_bit, l.tag)) =
      (ls[j]?).map (fun l => (l.valid, l.dirty_bit, l.tag)) := by
  rw [add_LRU_counter_get]
  cases h : ls[j]? with
  | none => rfl
  | some l =>
    simp only [Option.map_some']
    split <;> simp [bump]

theorem hit_scan_vdt (tag : Nat) (ls : List line_t) (j : Nat) :
    ((hit_scan tag ls).1[j]?).map (fun l => (l.valid, l.dirty_bit, l.tag)) =
      (ls[j]?).map (fun l => (l.valid, l.dirty_bit, l.tag)) := by
  induction ls generalizing j with
  | nil => simp [hit_scan]
  | cons l ls ih =>
    by_cases hm : l.tag = tag ∧ l.valid = true
    · cases j with
      | zero => simp [hit_scan, hm]
      | succ j => simp [hit_scan, hm]
    · cases j with
      | zero => simp [hit_scan, hm, bump]
      | succ j => simpa [hit_scan, hm] using ih j

theorem fill_scan_dirty (tag : Nat) (ls : List line_t) (j : Nat) :
    ((fill_scan tag ls).1[j]?).map line_t.dirty_bit =
      (ls[j]?).map line_t.dirty_bit := by
  induction ls generalizing j with
  | nil => simp [fill_scan]
  | cons l ls ih =>
    by_cases hm : l.valid = false
    · cases j with
      | zero => simp [fill_scan, hm]
      | succ j => simp [fill_scan, hm]
    · cases j with
      | zero => simp [fill_scan, hm, bump]
      | succ j => simpa [fill_scan, hm] using ih j

theorem update_at_install_dirty (tg i : Nat) (ls : List line_t) (j : Nat) :
    ((update_at (fun l => { l with tag := tg, LRU_counter := 0 }) i ls)[j]?).map
        line_t.dirty_bit = (ls[j]?).map line_t.dirty_bit := by
  rw [update_at_get]
  split
  · cases ls[j]? <;> simp
  · rfl

/-! ### Path equations for `cache_sim` -/

theorem cache_sim_hit_eq (a : Char) (ls : List line_t) (tag b : Nat) (st : csim_stats)
    (i : Nat) (h : (hit_scan tag ls).2 = some i) :
    cache_sim a ls tag b st =
      (if a = 'S' ∧
          (nth (add_LRU_counter (hit_scan tag ls).1 (i + 1) ls.length) i).dirty_bit = false
        then
          (update_at (fun l => { l with dirty_bit := true }) i
              (add_LRU_counter (hit_scan tag ls).1 (i + 1) ls.length),
            { st with hit := st.hit + 1, dirty_bytes := st.dirty_bytes + 2 ^ b })
        else
          (add_LRU_counter (hit_scan tag ls).1 (i + 1) ls.length,
            { st with hit := st.hit + 1 })) := by
  simp only [cache_sim, h, hit_scan_length]

theorem cache_sim_fill_eq (a : Char) (ls : List line_t) (tag b : Nat) (st : csim_stats)
    (i : Nat) (h1 : (hit_scan tag ls).2 = none)
    (h2 : (fill_scan tag (hit_scan tag ls).1).2 = some i) :
    cache_sim a ls tag b st =
      (if a = 'S' then
          (update_at (fun l => { l with dirty_bit := true }) i
              (add_LRU_counter (fill_scan tag (hit_scan tag ls).1).1 (i + 1) ls.length),
            { st with miss := st.miss + 1, dirty_bytes := st.dirty_bytes + 2 ^ b })
        else
          (add_LRU_counter (fill_scan tag (hit_scan tag ls).1).1 (i + 1) ls.length,
            { st with miss := st.miss + 1 })) := by
  simp only [cache_sim, h1, h2, fill_scan_length, hit_scan_length]

theorem cache_sim_evict_eq (a : Char) (ls : List line_t) (tag b : Nat) (st : csim_stats)
    (h1 : (hit_scan tag ls).2 = none)
    (h2 : (fill_scan tag (hit_scan tag ls).1).2 = none) :
    cache_sim a ls tag b st =
      (let L2 := (fill_scan tag (hit_scan tag ls).1).1
       let ei := find_victim L2
       let L4 := add_LRU_counter
         (add_LRU_counter (update_at (fun l => { l with tag := tag, LRU_counter := 0 }) ei L2)
           0 ei) (ei + 1) ls.length
       if (nth L4 ei).dirty_bit = false ∧ a = 'S' then
         (update_at (fun l => { l with dirty_bit := true }) ei L4,
           { st with miss := st.miss + 1, eviction := st.eviction + 1,
                     dirty_bytes := st.dirty_bytes + 2 ^ b })
       else if (nth L4 ei).dirty_bit = true then
         if a = 'L' then
           (update_at (fun l => { l with dirty_bit := false }) ei L4,
             { st with miss := st.miss + 1, eviction := st.eviction + 1,
                       dirty_bytes := st.dirty_bytes - 2 ^ b,
                       dirty_evictions := st.dirty_evictions + 2 ^ b })
         else if a = 'S' then
           (L4, { st with miss := st.miss + 1, eviction := st.eviction + 1,
                          dirty_evictions := st.dirty_evictions + 2 ^ b })
         else
           (L4, { st with miss := st.miss + 1, eviction := st.eviction + 1 })
       else
         (L4, { st with miss := st.miss + 1, eviction := st.eviction + 1 })) := by
  simp only [cache_sim, h1, h2, update_at_length, fill_scan_length, hit_scan_length]

theorem proj_dirty_of_vdt {x y : Option line_t}
    (h : x.map (fun l => (l.valid, l.dirty_bit, l.tag)) =
      y.map (fun l => (l.valid, l.dirty_bit, l.tag))) :
    x.map line_t.dirty_bit = y.map line_t.dirty_bit := by
  cases x <;> cases y <;> simp_all

theorem proj_valid_of_vdt {x y : Option line_t}
    (h : x.map (fun l => (l.valid, l.dirty_bit, l.tag)) =
      y.map (fun l => (l.valid, l.dirty_bit, l.tag))) :
    x.map line_t.valid = y.map line_t.valid := by
  cases x <;> cases y <;> simp_all

theorem add_LRU_counter_dirty (ls : List line_t) (b e j : Nat) :
    ((add_LRU_counter ls b e)[j]?).map line_t.dirty_bit =
      (ls[j]?).map line_t.dirty_bit :=
  proj_dirty_of_vdt (add_LRU_counter_vdt ls b e j)

theorem hit_scan_dirty (tag : Nat) (ls : List line_t) (j : Nat) :
    ((hit_scan tag ls).1[j]?).map line_t.dirty_bit = (ls[j]?).map line_t.dirty_bit :=
  proj_dirty_of_vdt (hit_scan_vdt tag ls j)

/-! ### LRU aging, path by path: on a hit the touched line's counter is
reset to 0 and every other line of the set ages by exactly 1; on a miss
that fills an empty slot every other line ages by exactly 2 (once in the
hit scan, once more in the fill scan or the trailing `add_LRU_counter`
call); on a miss with eviction every other line ages by exactly 3. -/

theorem cache_sim_hit_lru (a : Char) (ls : List line_t) (tag b : Nat) (st : csim_stats)
    (i : Nat) (h : (hit_scan tag ls).2 = some i) (j : Nat) :
    ((cache_sim a ls tag b st).1[j]?).map line_t.LRU_counter =
      (if j = i then (ls[j]?).map (fun _ => 0)
       else (ls[j]?).map (fun l => l.LRU_counter + 1)) := by
  obtain ⟨hlen, hlt, heq, hgt, -⟩ := hit_scan_some_get tag ls i h
  have hj2 : ∀ jj : Nat,
      ((add_LRU_counter (hit_scan tag ls).1 (i + 1) ls.length)[jj]?).map line_t.LRU_counter =
        (if jj = i then (ls[jj]?).map (fun _ => 0)
         else (ls[jj]?).map (fun l => l.LRU_counter + 1)) := by
    intro jj
    rw [add_LRU_counter_get]
    rcases lt_trichotomy jj i with h1 | rfl | h1
    · have hne : jj ≠ i := Nat.ne_of_lt h1
      have hc : ¬(i + 1 ≤ jj ∧ jj < ls.length) := by omega
      rw [hlt jj h1]
      cases hx : ls[jj]? <;> simp [hc, hne, bump]
    · have hc : ¬(jj + 1 ≤ jj ∧ jj < ls.length) := by omega
      rw [heq]
      cases hx : ls[jj]? <;> simp [hc]
    · have hne : jj ≠ i := Nat.ne_of_gt h1
      rw [hgt jj h1]
      by_cases hc : jj < ls.length
      · have hcc : i + 1 ≤ jj ∧ jj < ls.length := ⟨h1, hc⟩
        cases hx : ls[jj]? <;> simp [hcc, hne, bump]
      · have hx : ls[jj]? = none := by
          rw [List.getElem?_eq_none_iff]; omega
        simp [hx, hne]
  rw [cache_sim_hit_eq a ls tag b st i h]
  split
  · rcases eq_or_ne i j with rfl | hne
    · have := hj2 i
      simp only [update_at_get, if_pos rfl]
      cases hx : (add_LRU_counter (hit_scan tag ls).1 (i + 1) ls.length)[i]? <;>
        simp_all
    · simp only [update_at_get, if_neg hne]
      exact hj2 j
  · exact hj2 j

theorem cache_sim_fill_lru (a : Char) (ls : List line_t) (tag b : Nat) (st : csim_stats)
    (i : Nat) (h1 : (hit_scan tag ls).2 = none)
    (h2 : (fill_scan tag (hit_scan tag ls).1).2 = some i) (j : Nat) :
    ((cache_sim a ls tag b st).1[j]?).map line_t.LRU_counter =
      (if j = i then (ls[j]?).map (fun _ => 0)
       else (ls[j]?).map (fun l => l.LRU_counter + 2)) := by
  obtain ⟨hlen, hlt, heq, hgt, -⟩ := fill_scan_some_get tag (hit_scan tag ls).1 i h2
  have hbase : ∀ jj : Nat, (hit_scan tag ls).1[jj]? = ls[jj]?.map bump :=
    hit_scan_none_get tag ls h1
  have hlen2 : i < ls.length := by
    rw [hit_scan_length] at hlen; exact hlen
  have hj2 : ∀ jj : Nat,
      ((add_LRU_counter (fill_scan tag (hit_scan tag ls).1).1 (i + 1) ls.length)[jj]?).map
          line_t.LRU_counter =
        (if jj = i then (ls[jj]?).map (fun _ => 0)
         else (ls[jj]?).map (fun l => l.LRU_counter + 2)) := by
    intro jj
    rw [add_LRU_counter_get]
    rcases lt_trichotomy jj i with hcmp | rfl | hcmp
    · have hne : jj ≠ i := Nat.ne_of_lt hcmp
      have hc : ¬(i + 1 ≤ jj ∧ jj < ls.length) := by omega
      rw [hlt jj hcmp, hbase jj]
      cases hx : ls[jj]? <;> simp [hc, hne, bump]
    · have hc : ¬(jj + 1 ≤ jj ∧ jj < ls.length) := by omega
      rw [heq, hbase jj]
      cases hx : ls[jj]? <;> simp [hc]
    · have hne : jj ≠ i := Nat.ne_of_gt hcmp
      rw [hgt jj hcmp, hbase jj]
      by_cases hc : jj < ls.length
      · have hcc : i + 1 ≤ jj ∧ jj < ls.length := ⟨hcmp, hc⟩
        cases hx : ls[jj]? <;> simp [hcc, hne, bump]
      · have hx : ls[jj]? = none := by
          rw [List.getElem?_eq_none_iff]; omega
        simp [hx, hne]
  rw [cache_sim_fill_eq a ls tag b st i h1 h2]
  split
  · rcases eq_or_ne i j with rfl | hne
    · have := hj2 i
      simp only [update_at_get, if_pos rfl]
      cases hx :
          (add_LRU_counter (fill_scan tag (hit_scan tag ls).1).1 (i + 1) ls.length)[i]? <;>
        simp_all
    · simp only [update_at_get, if_neg hne]
      exact hj2 j
  · exact hj2 j

theorem cache_sim_evict_lru (a : Char) (ls : List line_t) (tag b : Nat) (st : csim_stats)
    (h1 : (hit_scan tag ls).2 = none)
    (h2 : (fill_scan tag (hit_scan tag ls).1).2 = none) (j : Nat) :
    ((cache_sim a ls tag b st).1[j]?).map line_t.LRU_counter =
      (if j = find_victim (fill_scan tag (hit_scan tag ls).1).1 then
        (ls[j]?).map (fun _ => 0)
       else (ls[j]?).map (fun l => l.LRU_counter + 3)) := by
  have hbase : ∀ jj : Nat,
      (fill_scan tag (hit_scan tag ls).1).1[jj]? = ls[jj]?.map (fun l => bump (bump l)) := by
    intro jj
    rw [fill_scan_none_get tag (hit_scan tag ls).1 h2 jj, hit_scan_none_get tag ls h1 jj]
    cases ls[jj]? <;> simp
  have hlen2 : (fill_scan tag (hit_scan tag ls).1).1.length = ls.length := by
    rw [fill_scan_length, hit_scan_length]
  set ei := find_victim (fill_scan tag (hit_scan tag ls).1).1 with hei
  have hj4 : ∀ jj : Nat,
      ((add_LRU_counter
          (add_LRU_counter
            (update_at (fun l => { l with tag := tag, LRU_counter := 0 }) ei
              (fill_scan tag (hit_scan tag ls).1).1) 0 ei)
          (ei + 1) ls.length)[jj]?).map line_t.LRU_counter =
        (if jj = ei then (ls[jj]?).map (fun _ => 0)
         else (ls[jj]?).map (fun l => l.LRU_counter + 3)) := by
    intro jj
    rw [add_LRU_counter_get, add_LRU_counter_get, update_at_get, hbase jj]
    rcases lt_trichotomy jj ei with hcmp | rfl | hcmp
    · have hne : jj ≠ ei := Nat.ne_of_lt hcmp
      have hc2 : ¬(ei + 1 ≤ jj) := by omega
      have hne' : ei ≠ jj := Nat.ne_of_gt hcmp
      cases hx : ls[jj]? <;> simp [hcmp, hc2, hne, hne', bump]
    · have hc1 : ¬(ei < ei) := by omega
      have hc2 : ¬(ei + 1 ≤ ei) := by omega
      cases hx : ls[ei]? <;> simp [hc1, hc2]
    · have hne : jj ≠ ei := Nat.ne_of_gt hcmp
      have hne' : ei ≠ jj := Nat.ne_of_lt hcmp
      have hc1 : ¬(jj < ei) := by omega
      by_cases hc : jj < ls.length
      · have hc2 : ei + 1 ≤ jj ∧ jj < ls.length := ⟨hcmp, hc⟩
        cases hx : ls[jj]? <;> simp [hc1, hc2, hne, hne', bump]
      · have hx : ls[jj]? = none := by
          rw [List.getElem?_eq_none_iff]; omega
        simp [hx, hne, hne', hc1]
  rw [cache_sim_evict_eq a ls tag b st h1 h2]
  simp only
  split
  · rcases eq_or_ne ei j with rfl | hne
    · have := hj4 ei
      simp only [update_at_get, if_pos rfl]
      cases hx :
          (add_LRU_counter
            (add_LRU_counter
              (update_at (fun l => { l with tag := tag, LRU_counter := 0 }) ei
                (fill_scan tag (hit_scan tag ls).1).1) 0 ei)
            (ei + 1) ls.length)[ei]? <;>
        simp_all
    · simp only [update_at_get, if_neg hne]
      exact hj4 j
  · split
    · split
      · rcases eq_or_ne ei j with rfl | hne
        · have := hj4 ei
          simp only [update_at_get, if_pos rfl]
          cases hx :
              (add_LRU_counter
                (add_LRU_counter
                  (update_at (fun l => { l with tag := tag, LRU_counter := 0 }) ei
                    (fill_scan tag (hit_scan tag ls).1).1) 0 ei)
                (ei + 1) ls.length)[ei]? <;>
            simp_all
        · simp only [update_at_get, if_neg hne]
          exact hj4 j
      · split
        · exact hj4 j
        · exact hj4 j
    · exact hj4 j

/-! ### Per-path statistics: each access increments exactly one of
`hit`/`miss`, and `eviction` only moves (by one) on the no-empty-slot
miss path -/

theorem cache_sim_stats_hit (a : Char) (ls : List line_t) (tag b : Nat) (st : csim_stats)
    (i : Nat) (h : (hit_scan tag ls).2 = some i) :
    ∃ db, (cache_sim a ls tag b st).2 = { st with hit := st.hit + 1, dirty_bytes := db } := by
  rw [cache_sim_hit_eq a ls tag b st i h]
  split
  · exact ⟨st.dirty_bytes + 2 ^ b, rfl⟩
  · exact ⟨st.dirty_bytes, rfl⟩

theorem cache_sim_stats_fill (a : Char) (ls : List line_t) (tag b : Nat) (st : csim_stats)
    (i : Nat) (h1 : (hit_scan tag ls).2 = none)
    (h2 : (fill_scan tag (hit_scan tag ls).1).2 = some i) :
    ∃ db, (cache_sim a ls tag b st).2 = { st with miss := st.miss + 1, dirty_bytes := db } := by
  rw [cache_sim_fill_eq a ls tag b st i h1 h2]
  split
  · exact ⟨st.dirty_bytes + 2 ^ b, rfl⟩
  · exact ⟨st.dirty_bytes, rfl⟩

theorem cache_sim_stats_evict (a : Char) (ls : List line_t) (tag b : Nat) (st : csim_stats)
    (h1 : (hit_scan tag ls).2 = none)
    (h2 : (fill_scan tag (hit_scan tag ls).1).2 = none) :
    ∃ db de, (cache_sim a ls tag b st).2 =
      { st with miss := st.miss + 1, eviction := st.eviction + 1,
                dirty_bytes := db, dirty_evictions := de } := by
  rw [cache_sim_evict_eq a ls tag b st h1 h2]
  simp only
  split
  · exact ⟨st.dirty_bytes + 2 ^ b, st.dirty_evictions, rfl⟩
  · split
    · split
      · exact ⟨st.dirty_bytes - 2 ^ b, st.dirty_evictions + 2 ^ b, rfl⟩
      · split
        · exact ⟨st.dirty_bytes, st.dirty_evictions + 2 ^ b, rfl⟩
        · exact ⟨st.dirty_bytes, st.dirty_evictions, rfl⟩
    · exact ⟨st.dirty_bytes, st.dirty_evictions, rfl⟩

/-! ### Per-path valid bits: only the empty-slot fill ever changes a
valid bit, and it changes it from invalid to valid -/

theorem cache_sim_hit_valid (a : Char) (ls : List line_t) (tag b : Nat) (st : csim_stats)
    (i : Nat) (h : (hit_scan tag ls).2 = some i) (j : Nat) :
    ((cache_sim a ls tag b st).1[j]?).map line_t.valid = (ls[j]?).map line_t.valid := by
  have hv : ∀ jj : Nat,
      ((add_LRU_counter (hit_scan tag ls).1 (i + 1) ls.length)[jj]?).map line_t.valid =
        (ls[jj]?).map line_t.valid := fun jj =>
    proj_valid_of_vdt
      ((add_LRU_counter_vdt (hit_scan tag ls).1 (i + 1) ls.length jj).trans
        (hit_scan_vdt tag ls jj))
  rw [cache_sim_hit_eq a ls tag b st i h]
  split
  · rw [update_at_get]
    rcases eq_or_ne i j with rfl | hne
    · rw [if_pos rfl]
      have hvi := hv i
      cases hx : (add_LRU_counter (hit_scan tag ls).1 (i + 1) ls.length)[i]? <;> simp_all
    · rw [if_neg hne]
      exact hv j
  · exact hv j

theorem cache_sim_hit_dirty_ne (a : Char) (ls : List line_t) (tag b : Nat) (st : csim_stats)
    (i : Nat) (h : (hit_scan tag ls).2 = some i) (j : Nat) (hj : j ≠ i) :
    ((cache_sim a ls tag b st).1[j]?).map line_t.dirty_bit =
      (ls[j]?).map line_t.dirty_bit := by
  have hd : ((add_LRU_counter (hit_scan tag ls).1 (i + 1) ls.length)[j]?).map line_t.dirty_bit =
      (ls[j]?).map line_t.dirty_bit :=
    (add_LRU_counter_dirty (hit_scan tag ls).1 (i + 1) ls.length j).trans
      (hit_scan_dirty tag ls j)
  rw [cache_sim_hit_eq a ls tag b st i h]
  split
  · rw [update_at_get, if_neg (fun hh => hj hh.symm)]
    exact hd
  · exact hd

theorem cache_sim_fill_valid (a : Char) (ls : List line_t) (tag b : Nat) (st : csim_stats)
    (i : Nat) (h1 : (hit_scan tag ls).2 = none)
    (h2 : (fill_scan tag (hit_scan tag ls).1).2 = some i) (j : Nat) :
    ((cache_sim a ls tag b st).1[j]?).map line_t.valid =
      (if j = i then (ls[j]?).map (fun _ => true) else (ls[j]?).map line_t.valid) := by
  obtain ⟨hlen, hlt, heq, hgt, -⟩ := fill_scan_some_get tag (hit_scan tag ls).1 i h2
  have hbase : ∀ jj : Nat, (hit_scan tag ls).1[jj]? = ls[jj]?.map bump :=
    hit_scan_none_get tag ls h1
  have hlen2 : i < ls.length := by
    rw [hit_scan_length] at hlen; exact hlen
  have hv : ∀ jj : Nat,
      ((add_LRU_counter (fill_scan tag (hit_scan tag ls).1).1 (i + 1) ls.length)[jj]?).map
          line_t.valid =
        (if jj = i then (ls[jj]?).map (fun _ => true) else (ls[jj]?).map line_t.valid) := by
    intro jj
    rw [add_LRU_counter_get]
    rcases lt_trichotomy jj i with hcmp | rfl | hcmp
    · have hne : jj ≠ i := Nat.ne_of_lt hcmp
      have hc : ¬(i + 1 ≤ jj ∧ jj < ls.length) := by omega
      rw [hlt jj hcmp, hbase jj]
      cases hx : ls[jj]? <;> simp [hc, hne, bump]
    · have hc : ¬(jj + 1 ≤ jj ∧ jj < ls.length) := by omega
      rw [heq, hbase jj]
      cases hx : ls[jj]? <;> simp [hc]
    · have hne : jj ≠ i := Nat.ne_of_gt hcmp
      rw [hgt jj hcmp, hbase jj]
      by_cases hc : jj < ls.length
      · have hcc : i + 1 ≤ jj ∧ jj < ls.length := ⟨hcmp, hc⟩
        cases hx : ls[jj]? <;> simp [hcc, hne, bump]
      · have hx : ls[jj]? = none := by
          rw [List.getElem?_eq_none_iff]; omega
        simp [hx, hne]
  rw [cache_sim_fill_eq a ls tag b st i h1 h2]
  split
  · rw [update_at_get]
    rcases eq_or_ne i j with rfl | hne
    · rw [if_pos rfl]
      have hvi := hv i
      cases hx :
          (add_LRU_counter (fill_scan tag (hit_scan tag ls).1).1 (i + 1) ls.length)[i]? <;>
        simp_all
    · rw [if_neg hne]
      exact hv j
  · exact hv j

theorem cache_sim_fill_dirty_ne (a : Char) (ls : List line_t) (tag b : Nat) (st : csim_stats)
    (i : Nat) (h1 : (hit_scan tag ls).2 = none)
    (h2 : (fill_scan tag (hit_scan tag ls).1).2 = some i) (j : Nat) (hj : j ≠ i) :
    ((cache_sim a ls tag b st).1[j]?).map line_t.dirty_bit =
      (ls[j]?).map line_t.dirty_bit := by
  have hd : ((add_LRU_counter (fill_scan tag (hit_scan tag ls).1).1 (i + 1) ls.length)[j]?).map
      line_t.dirty_bit = (ls[j]?).map line_t.dirty_bit :=
    ((add_LRU_counter_dirty (fill_scan tag (hit_scan tag ls).1).1 (i + 1) ls.length j).trans
      (fill_scan_dirty tag (hit_scan tag ls).1 j)).trans (hit_scan_dirty tag ls j)
  rw [cache_sim_fill_eq a ls tag b st i h1 h2]
  split
  · rw [update_at_get, if_neg (fun hh => hj hh.symm)]
    exact hd
  · exact hd

theorem update_at_install_valid (tg i : Nat) (ls : List line_t) (j : Nat) :
    ((update_at (fun l => { l with tag := tg, LRU_counter := 0 }) i ls)[j]?).map
        line_t.valid = (ls[j]?).map line_t.valid := by
  rw [update_at_get]
  split
  · cases ls[j]? <;> simp
  · rfl

/-- Pointwise dirty bits of the fully aged line array `lines4` of the
eviction path: neither the scans, nor the victim install (which writes
only `tag` and `LRU_counter`), nor the aging calls touch a dirty bit. -/
theorem evict_L4_dirty (tag : Nat) (ls : List line_t) (jj : Nat) :
    ((add_LRU_counter
        (add_LRU_counter
          (update_at (fun l => { l with tag := tag, LRU_counter := 0 })
            (find_victim (fill_scan tag (hit_scan tag ls).1).1)
            (fill_scan tag (hit_scan tag ls).1).1)
          0 (find_victim (fill_scan tag (hit_scan tag ls).1).1))
        (find_victim (fill_scan tag (hit_scan tag ls).1).1 + 1) ls.length)[jj]?).map
      line_t.dirty_bit = (ls[jj]?).map line_t.dirty_bit := by
  refine ((add_LRU_counter_dirty _ _ _ jj).trans ?_)
  refine ((add_LRU_counter_dirty _ _ _ jj).trans ?_)
  refine ((update_at_install_dirty tag _ _ jj).trans ?_)
  exact (fill_scan_dirty tag _ jj).trans (hit_scan_dirty tag ls jj)

/-- Pointwise valid bits of `lines4` in the eviction path: on this path
the fill scan found no invalid line, so no operation changes a valid
bit. -/
theorem evict_L4_valid (tag : Nat) (ls : List line_t)
    (h1 : (hit_scan tag ls).2 = none)
    (h2 : (fill_scan tag (hit_scan tag ls).1).2 = none) (jj : Nat) :
    ((add_LRU_counter
        (add_LRU_counter
          (update_at (fun l => { l with tag := tag, LRU_counter := 0 })
            (find_victim (fill_scan tag (hit_scan tag ls).1).1)
            (fill_scan tag (hit_scan tag ls).1).1)
          0 (find_victim (fill_scan tag (hit_scan tag ls).1).1))
        (find_victim (fill_scan tag (hit_scan tag ls).1).1 + 1) ls.length)[jj]?).map
      line_t.valid = (ls[jj]?).map line_t.valid := by
  refine (proj_valid_of_vdt (add_LRU_counter_vdt _ _ _ jj)).trans ?_
  refine (proj_valid_of_vdt (add_LRU_counter_vdt _ _ _ jj)).trans ?_
  refine (update_at_install_valid tag _ _ jj).trans ?_
  rw [fill_scan_none_get tag (hit_scan tag ls).1 h2 jj, hit_scan_none_get tag ls h1 jj]
  cases ls[jj]? <;> simp [bump]

theorem cache_sim_evict_valid (a : Char) (ls : List line_t) (tag b : Nat) (st : csim_stats)
    (h1 : (hit_scan tag ls).2 = none)
    (h2 : (fill_scan tag (hit_scan tag ls).1).2 = none) (j : Nat) :
    ((cache_sim a ls tag b st).1[j]?).map line_t.valid = (ls[j]?).map line_t.valid := by
  rw [cache_sim_evict_eq a ls tag b st h1 h2]
  simp only
  split
  · rw [update_at_get]
    split
    · rename_i heq2
      rw [← heq2]
      have hL4 := evict_L4_valid tag ls h1 h2 (find_victim (fill_scan tag (hit_scan tag ls).1).1)
      revert hL4
      cases hx :
          (add_LRU_counter
            (add_LRU_counter
              (update_at (fun l => { l with tag := tag, LRU_counter := 0 })
                (find_victim (fill_scan tag (hit_scan tag ls).1).1)
                (fill_scan tag (hit_scan tag ls).1).1)
              0 (find_victim (fill_scan tag (hit_scan tag ls).1).1))
            (find_victim (fill_scan tag (hit_scan tag ls).1).1 + 1) ls.length)[(find_victim
            (fill_scan tag (hit_scan tag ls).1).1)]? <;>
        (intro hL4; simp_all)
    · exact evict_L4_valid tag ls h1 h2 j
  · split
    · split
      · rw [update_at_get]
        split
        · rename_i heq2
          rw [← heq2]
          have hL4 :=
            evict_L4_valid tag ls h1 h2 (find_victim (fill_scan tag (hit_scan tag ls).1).1)
          revert hL4
          cases hx :
              (add_LRU_counter
                (add_LRU_counter
                  (update_at (fun l => { l with tag := tag, LRU_counter := 0 })
                    (find_victim (fill_scan tag (hit_scan tag ls).1).1)
                    (fill_scan tag (hit_scan tag ls).1).1)
                  0 (find_victim (fill_scan tag (hit_scan tag ls).1).1))
                (find_victim (fill_scan tag (hit_scan tag ls).1).1 + 1) ls.length)[(find_victim
                (fill_scan tag (hit_scan tag ls).1).1)]? <;>
            (intro hL4; simp_all)
        · exact evict_L4_valid tag ls h1 h2 j
      · split
        · exact evict_L4_valid tag ls h1 h2 j
        · exact evict_L4_valid tag ls h1 h2 j
    · exact evict_L4_valid tag ls h1 h2 j

theorem cache_sim_evict_dirty_ne (a : Char) (ls : List line_t) (tag b : Nat) (st : csim_stats)
    (h1 : (hit_scan tag ls).2 = none)
    (h2 : (fill_scan tag (hit_scan tag ls).1).2 = none) (j : Nat)
    (hj : j ≠ find_victim (fill_scan tag (hit_scan tag ls).1).1) :
    ((cache_sim a ls tag b st).1[j]?).map line_t.dirty_bit =
      (ls[j]?).map line_t.dirty_bit := by
  rw [cache_sim_evict_eq a ls tag b st h1 h2]
  simp only
  split
  · rw [update_at_get, if_neg (fun hh => hj hh.symm)]
    exact evict_L4_dirty tag ls j
  · split
    · split
      · rw [update_at_get, if_neg (fun hh => hj hh.symm)]
        exact evict_L4_dirty tag ls j
      · split
        · exact evict_L4_dirty tag ls j
        · exact evict_L4_dirty tag ls j
    · exact evict_L4_dirty tag ls j

/-! ### Dirty-byte accounting: `set_dirty_sum` is unchanged by the scans
and aging (which never touch valid/dirty bits of installed data), and
moves in controlled steps on dirty-bit updates -/

theorem line_dirty_bytes_bump (B : Nat) (l : line_t) :
    line_dirty_bytes B (bump l) = line_dirty_bytes B l := by
  simp [line_dirty_bytes, bump]

theorem set_dirty_sum_cons (B : Nat) (l : line_t) (ls : List line_t) :
    set_dirty_sum B (l :: ls) = line_dirty_bytes B l + set_dirty_sum B ls := by
  simp [set_dirty_sum]

theorem set_dirty_sum_hit_scan (B tag : Nat) (ls : List line_t) :
    set_dirty_sum B (hit_scan tag ls).1 = set_dirty_sum B ls := by
  induction ls with
  | nil => rfl
  | cons l ls ih =>
    by_cases hm : l.tag = tag ∧ l.valid = true
    · simp [hit_scan, hm, set_dirty_sum_cons, line_dirty_bytes]
    · simp [hit_scan, hm, set_dirty_sum_cons, line_dirty_bytes_bump, ih]

theorem set_dirty_sum_add_LRU_go (B b e i : Nat) (ls : List line_t) :
    set_dirty_sum B (add_LRU_go b e i ls) = set_dirty_sum B ls := by
  induction ls generalizing i with
  | nil => rfl
  | cons l ls ih =>
    simp only [add_LRU_go, set_dirty_sum_cons, ih]
    split <;> simp [line_dirty_bytes_bump]

theorem set_dirty_sum_add_LRU_counter (B : Nat) (ls : List line_t) (b e : Nat) :
    set_dirty_sum B (add_LRU_counter ls b e) = set_dirty_sum B ls :=
  set_dirty_sum_add_LRU_go B b e 0 ls

theorem clean_inv_cons {l : line_t} {ls : List line_t} :
    clean_inv (l :: ls) ↔
      (l.valid = false → l.dirty_bit = false) ∧ clean_inv ls := by
  constructor
  · intro h
    exact ⟨h 0 l (by simp), fun j x hx => h (j + 1) x (by simpa using hx)⟩
  · rintro ⟨h0, h⟩ j x hx
    cases j with
    | zero =>
      simp only [List.getElem?_cons_zero, Option.some.injEq] at hx
      subst hx
      exact h0
    | succ j => exact h j x (by simpa using hx)

theorem set_dirty_sum_fill_scan (B tag : Nat) (ls : List line_t) (h : clean_inv ls) :
    set_dirty_sum B (fill_scan tag ls).1 = set_dirty_sum B ls := by
  induction ls with
  | nil => rfl
  | cons l ls ih =>
    obtain ⟨h0, htail⟩ := clean_inv_cons.mp h
    by_cases hm : l.valid = false
    · have hd := h0 hm
      simp [fill_scan, hm, set_dirty_sum_cons, line_dirty_bytes, hd]
    · simp [fill_scan, hm, set_dirty_sum_cons, line_dirty_bytes_bump, ih htail]

theorem set_dirty_sum_update_at (B : Nat) (f : line_t → line_t) (ls : List line_t)
    (i : Nat) (hi : i < ls.length) :
    set_dirty_sum B (update_at f i ls) + line_dirty_bytes B (nth ls i) =
      set_dirty_sum B ls + line_dirty_bytes B (f (nth ls i)) := by
  induction ls generalizing i with
  | nil => simp at hi
  | cons l ls ih =>
    cases i with
    | zero =>
      simp only [update_at, set_dirty_sum_cons, nth, List.getD_cons_zero]
      omega
    | succ i =>
      have hi' : i < ls.length := by simpa using hi
      have hrec := ih i hi'
      simp only [update_at, set_dirty_sum_cons, nth, List.getD_cons_succ] at hrec ⊢
      omega

theorem line_le_set_dirty_sum (B : Nat) (ls : List line_t) (i : Nat) (hi : i < ls.length) :
    line_dirty_bytes B (nth ls i) ≤ set_dirty_sum B ls := by
  induction ls generalizing i with
  | nil => simp at hi
  | cons l ls ih =>
    cases i with
    | zero =>
      simp only [nth, List.getD_cons_zero, set_dirty_sum_cons]
      exact Nat.le_add_right _ _
    | succ i =>
      have hi' : i < ls.length := by simpa using hi
      have := ih i hi'
      simp only [nth, List.getD_cons_succ, set_dirty_sum_cons] at this ⊢
      omega

theorem set_dirty_sum_le (B : Nat) (ls : List line_t) :
    set_dirty_sum B ls ≤ ls.length * B := by
  induction ls with
  | nil => simp [set_dirty_sum]
  | cons l ls ih =>
    have hl : line_dirty_bytes B l ≤ B := by
      unfold line_dirty_bytes
      split <;> omega
    simp only [set_dirty_sum_cons, List.length_cons, Nat.succ_mul]
    omega

theorem cache_sim_length (a : Char) (ls : List line_t) (tag b : Nat) (st : csim_stats) :
    (cache_sim a ls tag b st).1.length = ls.length := by
  rcases hhs : (hit_scan tag ls).2 with - | i
  · rcases hfs : (fill_scan tag (hit_scan tag ls).1).2 with - | i
    · rw [cache_sim_evict_eq a ls tag b st hhs hfs]
      simp only
      split
      · simp [update_at_length, add_LRU_counter_length, fill_scan_length, hit_scan_length]
      · split
        · split
          · simp [update_at_length, add_LRU_counter_length, fill_scan_length, hit_scan_length]
          · split
            · simp [update_at_length, add_LRU_counter_length, fill_scan_length, hit_scan_length]
            · simp [update_at_length, add_LRU_counter_length, fill_scan_length, hit_scan_length]
        · simp [update_at_length, add_LRU_counter_length, fill_scan_length, hit_scan_length]
    · rw [cache_sim_fill_eq a ls tag b st i hhs hfs]
      split
      · simp [update_at_length, add_LRU_counter_length, fill_scan_length, hit_scan_length]
      · simp [add_LRU_counter_length, fill_scan_length, hit_scan_length]
  · rw [cache_sim_hit_eq a ls tag b st i hhs]
    split
    · simp [update_at_length, add_LRU_counter_length, hit_scan_length]
    · simp [add_LRU_counter_length, hit_scan_length]

/-- On the eviction path every line of the accessed set is valid: the
fill scan found no invalid line. -/
theorem evict_all_valid (tag : Nat) (ls : List line_t)
    (h1 : (hit_scan tag ls).2 = none)
    (h2 : (fill_scan tag (hit_scan tag ls).1).2 = none)
    (j : Nat) (x : line_t) (hx : ls[j]? = some x) : x.valid = true := by
  have hb := hit_scan_none_get tag ls h1 j
  rw [hx] at hb
  simp only [Option.map_some'] at hb
  have hmem : bump x ∈ (hit_scan tag ls).1 := List.getElem?_mem hb
  have := fill_scan_none_valid tag (hit_scan tag ls).1 h2 (bump x) hmem
  simpa [bump] using this

theorem clean_inv_hit_scan_none (tag : Nat) (ls : List line_t)
    (h1 : (hit_scan tag ls).2 = none) (hclean : clean_inv ls) :
    clean_inv (hit_scan tag ls).1 := by
  intro j x hx hxv
  have hb := hit_scan_none_get tag ls h1 j
  rw [hx] at hb
  cases hy : ls[j]? with
  | none => rw [hy] at hb; simp at hb
  | some y =>
    rw [hy] at hb
    simp only [Option.map_some', Option.some.injEq] at hb
    subst hb
    simp only [bump] at hxv ⊢
    exact hclean j y hy hxv

/-- The accessed set keeps the invariant that invalid lines are clean:
the dirty bit is only ever set on the touched line, which is valid
afterwards in every path. -/
theorem cache_sim_clean_inv (a : Char) (ls : List line_t) (tag b : Nat) (st : csim_stats)
    (hclean : clean_inv ls) : clean_inv (cache_sim a ls tag b st).1 := by
  intro j x hx hxv
  rcases hhs : (hit_scan tag ls).2 with - | i
  · rcases hfs : (fill_scan tag (hit_scan tag ls).1).2 with - | i
    · -- eviction path: every line is valid, so there is nothing to show
      exfalso
      have hv := cache_sim_evict_valid a ls tag b st hhs hfs j
      rw [hx] at hv
      cases hy : ls[j]? with
      | none => rw [hy] at hv; simp at hv
      | some y =>
        rw [hy] at hv
        simp only [Option.map_some', Option.some.injEq] at hv
        have := evict_all_valid tag ls hhs hfs j y hy
        rw [hxv] at hv
        rw [this] at hv
        cases hv
    · -- fill path
      have hv := cache_sim_fill_valid a ls tag b st i hhs hfs j
      rw [hx] at hv
      rcases eq_or_ne j i with rfl | hne
      · rw [if_pos rfl] at hv
        cases hy : ls[j]? with
        | none => rw [hy] at hv; simp at hv
        | some y =>
          rw [hy] at hv
          simp only [Option.map_some', Option.some.injEq] at hv
          rw [hxv] at hv
          cases hv
      · rw [if_neg hne] at hv
        have hd := cache_sim_fill_dirty_ne a ls tag b st i hhs hfs j hne
        rw [hx] at hd
        cases hy : ls[j]? with
        | none => rw [hy] at hv; simp at hv
        | some y =>
          rw [hy] at hv hd
          simp only [Option.map_some', Option.some.injEq] at hv hd
          rw [hd]
          exact hclean j y hy (hv ▸ hxv)
  · -- hit path
    have hv := cache_sim_hit_valid a ls tag b st i hhs j
    rw [hx] at hv
    cases hy : ls[j]? with
    | none => rw [hy] at hv; simp at hv
    | some y =>
      rw [hy] at hv
      simp only [Option.map_some', Option.some.injEq] at hv
      rcases eq_or_ne j i with rfl | hne
      · exfalso
        obtain ⟨-, -, -, -, lm, hlm, -, hlmvalid⟩ := hit_scan_some_get tag ls j hhs
        rw [hy] at hlm
        simp only [Option.some.injEq] at hlm
        subst hlm
        rw [hxv] at hv
        rw [hlmvalid] at hv
        cases hv
      · have hd := cache_sim_hit_dirty_ne a ls tag b st i hhs j hne
        rw [hx] at hd
        rw [hy] at hd
        simp only [Option.map_some', Option.some.injEq] at hd
        rw [hd]
        exact hclean j y hy (hv ▸ hxv)

theorem line_dirty_bytes_install (B tg : Nat) (l : line_t) :
    line_dirty_bytes B { l with tag := tg, LRU_counter := 0 } = line_dirty_bytes B l := by
  simp [line_dirty_bytes]

/-- Conservation of dirty bytes over one `cache_sim` call: the change of
the `dirty_bytes` counter equals the change of the independently
recomputed sum of block sizes over valid dirty lines.  Stated
additively so that the `unsigned` subtraction of the eviction path needs
no side condition beyond the (invariantly true) bound
`set_dirty_sum ≤ dirty_bytes`. -/
theorem cache_sim_dirty_eq (a : Char) (ls : List line_t) (tag b : Nat) (st : csim_stats)
    (hne : ls ≠ []) (hclean : clean_inv ls)
    (hle : set_dirty_sum (2 ^ b) ls ≤ st.dirty_bytes) :
    (cache_sim a ls tag b st).2.dirty_bytes + set_dirty_sum (2 ^ b) ls =
      st.dirty_bytes + set_dirty_sum (2 ^ b) (cache_sim a ls tag b st).1 := by
  rcases hhs : (hit_scan tag ls).2 with - | i
  · rcases hfs : (fill_scan tag (hit_scan tag ls).1).2 with - | i
    · -- eviction path
      have hcleanhs : clean_inv (hit_scan tag ls).1 := clean_inv_hit_scan_none tag ls hhs hclean
      have hL2len : (fill_scan tag (hit_scan tag ls).1).1.length = ls.length := by
        rw [fill_scan_length, hit_scan_length]
      have hL2ne : (fill_scan tag (hit_scan tag ls).1).1 ≠ [] := by
        rw [← List.length_pos, hL2len, List.length_pos]
        exact hne
      have heilt : find_victim (fill_scan tag (hit_scan tag ls).1).1 < ls.length := by
        have := find_victim_lt _ hL2ne
        rwa [hL2len] at this
      have hsumL2 : set_dirty_sum (2 ^ b) (fill_scan tag (hit_scan tag ls).1).1 =
          set_dirty_sum (2 ^ b) ls :=
        (set_dirty_sum_fill_scan (2 ^ b) tag (hit_scan tag ls).1 hcleanhs).trans
          (set_dirty_sum_hit_scan (2 ^ b) tag ls)
      have hupd0 := set_dirty_sum_update_at (2 ^ b)
        (fun l => { l with tag := tag, LRU_counter := 0 })
        (fill_scan tag (hit_scan tag ls).1).1
        (find_victim (fill_scan tag (hit_scan tag ls).1).1) (by rw [hL2len]; exact heilt)
      rw [line_dirty_bytes_install] at hupd0
      have hsumL4 : set_dirty_sum (2 ^ b)
          (add_LRU_counter
            (add_LRU_counter
              (update_at (fun l => { l with tag := tag, LRU_counter := 0 })
                (find_victim (fill_scan tag (hit_scan tag ls).1).1)
                (fill_scan tag (hit_scan tag ls).1).1)
              0 (find_victim (fill_scan tag (hit_scan tag ls).1).1))
            (find_victim (fill_scan tag (hit_scan tag ls).1).1 + 1) ls.length) =
          set_dirty_sum (2 ^ b) ls := by
        rw [set_dirty_sum_add_LRU_counter, set_dirty_sum_add_LRU_counter]
        omega
      have hL4len : (add_LRU_counter
          (add_LRU_counter
            (update_at (fun l => { l with tag := tag, LRU_counter := 0 })
              (find_victim (fill_scan tag (hit_scan tag ls).1).1)
              (fill_scan tag (hit_scan tag ls).1).1)
            0 (find_victim (fill_scan tag (hit_scan tag ls).1).1))
          (find_victim (fill_scan tag (hit_scan tag ls).1).1 + 1) ls.length).length =
          ls.length := by
        rw [add_LRU_counter_length, add_LRU_counter_length, update_at_length, hL2len]
      obtain ⟨y, hy⟩ : ∃ y, ls[(find_victim (fill_scan tag (hit_scan tag ls).1).1)]? = some y :=
        ⟨_, List.getElem?_eq_getElem heilt⟩
      have hyvalid : y.valid = true := evict_all_valid tag ls hhs hfs _ y hy
      obtain ⟨z, hz⟩ : ∃ z,
          (add_LRU_counter
            (add_LRU_counter
              (update_at (fun l => { l with tag := tag, LRU_counter := 0 })
                (find_victim (fill_scan tag (hit_scan tag ls).1).1)
                (fill_scan tag (hit_scan tag ls).1).1)
              0 (find_victim (fill_scan tag (hit_scan tag ls).1).1))
            (find_victim (fill_scan tag (hit_scan tag ls).1).1 + 1)
              ls.length)[(find_victim (fill_scan tag (hit_scan tag ls).1).1)]? = some z :=
        ⟨_, List.getElem?_eq_getElem (by rw [hL4len]; exact heilt)⟩
      have hzvalid : z.valid = true := by
        have hv := evict_L4_valid tag ls hhs hfs (find_victim (fill_scan tag (hit_scan tag ls).1).1)
        rw [hz, hy] at hv
        simp only [Option.map_some', Option.some.injEq] at hv
        rw [hv, hyvalid]
      have hzdirty : z.dirty_bit = y.dirty_bit := by
        have hd := evict_L4_dirty tag ls (find_victim (fill_scan tag (hit_scan tag ls).1).1)
        rw [hz, hy] at hd
        simpa using hd
      have hnthz : nth
          (add_LRU_counter
            (add_LRU_counter
              (update_at (fun l => { l with tag := tag, LRU_counter := 0 })
                (find_victim (fill_scan tag (hit_scan tag ls).1).1)
                (fill_scan tag (hit_scan tag ls).1).1)
              0 (find_victim (fill_scan tag (hit_scan tag ls).1).1))
            (find_victim (fill_scan tag (hit_scan tag ls).1).1 + 1) ls.length)
          (find_victim (fill_scan tag (hit_scan tag ls).1).1) = z := by
        rw [nth_eq_getD, hz]
        rfl
      have hupd := set_dirty_sum_update_at (2 ^ b) (fun l => { l with dirty_bit := true })
        (add_LRU_counter
          (add_LRU_counter
            (update_at (fun l => { l with tag := tag, LRU_counter := 0 })
              (find_victim (fill_scan tag (hit_scan tag ls).1).1)
              (fill_scan tag (hit_scan tag ls).1).1)
            0 (find_victim (fill_scan tag (hit_scan tag ls).1).1))
          (find_victim (fill_scan tag (hit_scan tag ls).1).1 + 1) ls.length)
        (find_victim (fill_scan tag (hit_scan tag ls).1).1) (by rw [hL4len]; exact heilt)
      have hupdc := set_dirty_sum_update_at (2 ^ b) (fun l => { l with dirty_bit := false })
        (add_LRU_counter
          (add_LRU_counter
            (update_at (fun l => { l with tag := tag, LRU_counter := 0 })
              (find_victim (fill_scan tag (hit_scan tag ls).1).1)
              (fill_scan tag (hit_scan tag ls).1).1)
            0 (find_victim (fill_scan tag (hit_scan tag ls).1).1))
          (find_victim (fill_scan tag (hit_scan tag ls).1).1 + 1) ls.length)
        (find_victim (fill_scan tag (hit_scan tag ls).1).1) (by rw [hL4len]; exact heilt)
      rw [hnthz] at hupd hupdc
      have hyb : line_dirty_bytes (2 ^ b) (nth ls
          (find_victim (fill_scan tag (hit_scan tag ls).1).1)) ≤ set_dirty_sum (2 ^ b) ls :=
        line_le_set_dirty_sum (2 ^ b) ls _ heilt
      have hnthy : nth ls (find_victim (fill_scan tag (hit_scan tag ls).1).1) = y := by
        rw [nth_eq_getD, hy]
        rfl
      rw [hnthy] at hyb
      rw [cache_sim_evict_eq a ls tag b st hhs hfs]
      simp only
      split
      · -- clean victim, store: dirty bit set, `dirty_bytes += B`
        rename_i hcond
        rw [hnthz] at hcond
        have h0 : line_dirty_bytes (2 ^ b) z = 0 := by
          simp [line_dirty_bytes, hcond.1]
        have hB : line_dirty_bytes (2 ^ b) { z with dirty_bit := true } = 2 ^ b := by
          simp [line_dirty_bytes, hzvalid]
        rw [h0, hB, hsumL4] at hupd
        dsimp only
        omega
      · rename_i hcond1
        split
        · rename_i hcond2
          rw [hnthz] at hcond2
          have hB : line_dirty_bytes (2 ^ b) z = 2 ^ b := by
            simp [line_dirty_bytes, hzvalid, hcond2]
          have hyB : line_dirty_bytes (2 ^ b) y = 2 ^ b := by
            have : y.dirty_bit = true := by rw [← hzdirty, hcond2]
            simp [line_dirty_bytes, hyvalid, this]
          rw [hyB] at hyb
          split
          · -- dirty victim, load: write back, `dirty_bytes -= B`
            have h0 : line_dirty_bytes (2 ^ b) { z with dirty_bit := false } = 0 := by
              simp [line_dirty_bytes]
            rw [hB, h0, hsumL4] at hupdc
            dsimp only
            omega
          · split
            · -- dirty victim, store: stays dirty, only `dirty_evictions` moves
              dsimp only
              omega
            · dsimp only
              omega
        · -- clean victim, load: nothing moves
          dsimp only
          omega
    · -- fill path
      have hcleanhs : clean_inv (hit_scan tag ls).1 := clean_inv_hit_scan_none tag ls hhs hclean
      obtain ⟨hlen, hlt, heqi, hgt, lm, hlm, hlmvalid⟩ :=
        fill_scan_some_get tag (hit_scan tag ls).1 i hfs
      rw [hit_scan_length] at hlen
      have hsum3 : set_dirty_sum (2 ^ b)
          (add_LRU_counter (fill_scan tag (hit_scan tag ls).1).1 (i + 1) ls.length) =
          set_dirty_sum (2 ^ b) ls := by
        rw [set_dirty_sum_add_LRU_counter,
          set_dirty_sum_fill_scan (2 ^ b) tag (hit_scan tag ls).1 hcleanhs,
          set_dirty_sum_hit_scan]
      have hlen3 : i <
          (add_LRU_counter (fill_scan tag (hit_scan tag ls).1).1 (i + 1) ls.length).length := by
        rw [add_LRU_counter_length, fill_scan_length, hit_scan_length]
        exact hlen
      -- the installed line: valid, with the dirty bit of the previously
      -- invalid (hence clean) slot
      have hbase := hit_scan_none_get tag ls hhs i
      rw [hlm] at hbase
      obtain ⟨y, hy, hylm⟩ : ∃ y, ls[i]? = some y ∧ bump y = lm := by
        cases hy : ls[i]? with
        | none => rw [hy] at hbase; simp at hbase
        | some y =>
          rw [hy] at hbase
          simp only [Option.map_some', Option.some.injEq] at hbase
          exact ⟨y, rfl, hbase.symm⟩
      have hyvalid : y.valid = false := by
        have : lm.valid = y.valid := by rw [← hylm]; rfl
        rw [← this, hlmvalid]
      have hydirty : y.dirty_bit = false := hclean i y hy hyvalid
      have hlmdirty : lm.dirty_bit = false := by
        rw [← hylm]
        simpa [bump] using hydirty
      have hz3 : (add_LRU_counter (fill_scan tag (hit_scan tag ls).1).1
          (i + 1) ls.length)[i]? =
          some { lm with valid := true, tag := tag, LRU_counter := 0 } := by
        rw [add_LRU_counter_get, heqi, hlm]
        have hc : ¬(i + 1 ≤ i ∧ i < ls.length) := by omega
        simp [hc]
      have hnth3 : nth (add_LRU_counter (fill_scan tag (hit_scan tag ls).1).1
          (i + 1) ls.length) i = { lm with valid := true, tag := tag, LRU_counter := 0 } := by
        rw [nth_eq_getD, hz3]
        rfl
      rw [cache_sim_fill_eq a ls tag b st i hhs hfs]
      split
      · -- store fill: dirty bit set on the fresh line, `dirty_bytes += B`
        have hupd := set_dirty_sum_update_at (2 ^ b) (fun l => { l with dirty_bit := true })
          (add_LRU_counter (fill_scan tag (hit_scan tag ls).1).1 (i + 1) ls.length) i hlen3
        rw [hnth3] at hupd
        have h0 : line_dirty_bytes (2 ^ b)
            { lm with valid := true, tag := tag, LRU_counter := 0 } = 0 := by
          simp [line_dirty_bytes, hlmdirty]
        have hB : line_dirty_bytes (2 ^ b)
            ((fun l => { l with dirty_bit := true })
              { lm with valid := true, tag := tag, LRU_counter := 0 }) = 2 ^ b := by
          simp [line_dirty_bytes]
        rw [h0, hB, hsum3] at hupd
        dsimp only
        omega
      · -- load fill: the fresh line stays clean, nothing moves
        dsimp only
        rw [hsum3]
  · -- hit path
    obtain ⟨hlen, hlt, heqi, hgt, lm, hlm, hlmtag, hlmvalid⟩ := hit_scan_some_get tag ls i hhs
    have hsum2 : set_dirty_sum (2 ^ b)
        (add_LRU_counter (hit_scan tag ls).1 (i + 1) ls.length) =
        set_dirty_sum (2 ^ b) ls := by
      rw [set_dirty_sum_add_LRU_counter, set_dirty_sum_hit_scan]
    have hlen2 : i < (add_LRU_counter (hit_scan tag ls).1 (i + 1) ls.length).length := by
      rw [add_LRU_counter_length, hit_scan_length]
      exact hlen
    have hv2 : ((add_LRU_counter (hit_scan tag ls).1 (i + 1) ls.length)[i]?).map line_t.valid =
        (ls[i]?).map line_t.valid :=
      proj_valid_of_vdt ((add_LRU_counter_vdt (hit_scan tag ls).1 (i + 1) ls.length i).trans
        (hit_scan_vdt tag ls i))
    cases hz : (add_LRU_counter (hit_scan tag ls).1 (i + 1) ls.length)[i]? with
    | none =>
      rw [hz, hlm] at hv2
      simp at hv2
    | some z =>
      rw [hz, hlm] at hv2
      simp only [Option.map_some', Option.some.injEq] at hv2
      have hzvalid : z.valid = true := by rw [hv2, hlmvalid]
      have hnthz : nth (add_LRU_counter (hit_scan tag ls).1 (i + 1) ls.length) i = z := by
        rw [nth_eq_getD, hz]
        rfl
      rw [cache_sim_hit_eq a ls tag b st i hhs]
      split
      · -- store hit on a clean line: dirty transition, `dirty_bytes += B`
        rename_i hcond
        rw [hnthz] at hcond
        have hupd := set_dirty_sum_update_at (2 ^ b) (fun l => { l with dirty_bit := true })
          (add_LRU_counter (hit_scan tag ls).1 (i + 1) ls.length) i hlen2
        rw [hnthz] at hupd
        have h0 : line_dirty_bytes (2 ^ b) z = 0 := by
          simp [line_dirty_bytes, hcond.2]
        have hB : line_dirty_bytes (2 ^ b) { z with dirty_bit := true } = 2 ^ b := by
          simp [line_dirty_bytes, hzvalid]
        rw [h0, hB, hsum2] at hupd
        dsimp only
        omega
      · -- any other hit: nothing moves
        dsimp only
        rw [hsum2]

/-! ### Driver-level lemmas -/

theorem process_record_eq (c : cache_t) (st : csim_stats) (r : AccessRecord)
    (h : r.kind = 'L' ∨ r.kind = 'S') :
    process_record c st r = some
      ({ c with sets := (c.sets.set (set_index_of r.address c.b c.s)
          (cache_sim r.kind (c.sets.getD (set_index_of r.address c.b c.s) [])
            (tag_of r.address c.b c.s) c.b st).1) },
        (cache_sim r.kind (c.sets.getD (set_index_of r.address c.b c.s) [])
          (tag_of r.address c.b c.s) c.b st).2) := by
  unfold process_record
  rw [if_pos h]

theorem process_record_bad (c : cache_t) (st : csim_stats) (r : AccessRecord)
    (h : ¬(r.kind = 'L' ∨ r.kind = 'S')) : process_record c st r = none := by
  unfold process_record
  rw [if_neg h]

theorem map_sum_set (g : List line_t → Nat) (sets : List (List line_t)) (i : Nat)
    (x : List line_t) (h : i < sets.length) :
    ((sets.set i x).map g).sum + g (sets.getD i []) = (sets.map g).sum + g x := by
  induction sets generalizing i with
  | nil => simp at h
  | cons hd tl ih =>
    cases i with
    | zero => simp [List.set]; omega
    | succ i =>
      have h' : i < tl.length := by simpa using h
      have := ih i h'
      simp only [List.set, List.map_cons, List.sum_cons, List.getD_cons_succ]
      omega

/-- One well-formed record preserves the whole-cache invariant: geometry
fields, set count, per-set line count, invalid-implies-clean, and
`dirty_bytes = cache_dirty_sum`. -/
theorem process_record_inv (c : cache_t) (st : csim_stats) (r : AccessRecord)
    (p : cache_t × csim_stats)
    (hE : 1 ≤ c.E) (hlen : c.sets.length = 2 ^ c.s)
    (hsl : ∀ s2 ∈ c.sets, s2.length = c.E)
    (hcl : ∀ s2 ∈ c.sets, clean_inv s2)
    (hdb : st.dirty_bytes = cache_dirty_sum c)
    (hp : process_record c st r = some p) :
    (p.1.s = c.s ∧ p.1.E = c.E ∧ p.1.b = c.b) ∧
    p.1.sets.length = 2 ^ c.s ∧
    (∀ s2 ∈ p.1.sets, s2.length = c.E) ∧
    (∀ s2 ∈ p.1.sets, clean_inv s2) ∧
    p.2.dirty_bytes = cache_dirty_sum p.1 := by
  by_cases hk : r.kind = 'L' ∨ r.kind = 'S'
  · rw [process_record_eq c st r hk] at hp
    have hilt : set_index_of r.address c.b c.s < c.sets.length := by
      rw [hlen]
      exact Nat.mod_lt _ (Nat.pos_pow_of_pos _ (by omega))
    have hS0 : c.sets.getD (set_index_of r.address c.b c.s) [] ∈ c.sets := by
      rw [List.getD_eq_getElem?_getD, List.getElem?_eq_getElem hilt]
      exact List.getElem_mem hilt
    have hS0len : (c.sets.getD (set_index_of r.address c.b c.s) []).length = c.E :=
      hsl _ hS0
    have hS0ne : c.sets.getD (set_index_of r.address c.b c.s) [] ≠ [] := by
      rw [← List.length_pos, hS0len]
      omega
    have hS0cl : clean_inv (c.sets.getD (set_index_of r.address c.b c.s) []) := hcl _ hS0
    have hS0le : set_dirty_sum (2 ^ c.b) (c.sets.getD (set_index_of r.address c.b c.s) []) ≤
        st.dirty_bytes := by
      rw [hdb]
      exact List.single_le_sum (fun x _ => Nat.zero_le x) _
        (List.mem_map_of_mem (set_dirty_sum (2 ^ c.b)) hS0)
    have hcons := cache_sim_dirty_eq r.kind
      (c.sets.getD (set_index_of r.address c.b c.s) [])
      (tag_of r.address c.b c.s) c.b st hS0ne hS0cl hS0le
    have hsum := map_sum_set (set_dirty_sum (2 ^ c.b)) c.sets
      (set_index_of r.address c.b c.s)
      (cache_sim r.kind (c.sets.getD (set_index_of r.address c.b c.s) [])
        (tag_of r.address c.b c.s) c.b st).1 hilt
    cases hp
    refine ⟨⟨rfl, rfl, rfl⟩, ?_, ?_, ?_, ?_⟩
    · simpa using hlen
    · intro s2 hs2
      simp only at hs2
      rcases List.mem_or_eq_of_mem_set hs2 with hs2' | rfl
      · exact hsl s2 hs2'
      · rw [cache_sim_length]
        exact hS0len
    · intro s2 hs2
      simp only at hs2
      rcases List.mem_or_eq_of_mem_set hs2 with hs2' | rfl
      · exact hcl s2 hs2'
      · exact cache_sim_clean_inv _ _ _ _ _ hS0cl
    · simp only [cache_dirty_sum] at hdb ⊢
      omega
  · rw [process_record_bad c st r hk] at hp
    cases hp

/-- The whole-cache invariant holds after every fully processed trace
prefix. -/
theorem run_trace_inv (t : List AccessRecord) :
    ∀ (c : cache_t) (st : csim_stats) (p : cache_t × csim_stats),
      1 ≤ c.E → c.sets.length = 2 ^ c.s →
      (∀ s2 ∈ c.sets, s2.length = c.E) →
      (∀ s2 ∈ c.sets, clean_inv s2) →
      st.dirty_bytes = cache_dirty_sum c →
      run_trace c st t = some p →
      (p.1.s = c.s ∧ p.1.E = c.E ∧ p.1.b = c.b) ∧
      p.1.sets.length = 2 ^ c.s ∧
      (∀ s2 ∈ p.1.sets, s2.length = c.E) ∧
      (∀ s2 ∈ p.1.sets, clean_inv s2) ∧
      p.2.dirty_bytes = cache_dirty_sum p.1 := by
  induction t with
  | nil =>
    intro c st p hE h2 h3 h4 h5 hrun
    simp only [run_trace, Option.some.injEq] at hrun
    subst hrun
    exact ⟨⟨rfl, rfl, rfl⟩, h2, h3, h4, h5⟩
  | cons r rs ih =>
    intro c st p hE h2 h3 h4 h5 hrun
    simp only [run_trace] at hrun
    cases hpr : process_record c st r with
    | none => rw [hpr] at hrun; cases hrun
    | some q =>
      rw [hpr] at hrun
      obtain ⟨⟨hgs, hgE, hgb⟩, hlen', hsl', hcl', hdb'⟩ :=
        process_record_inv c st r q hE h2 h3 h4 h5 hpr
      have hE' : 1 ≤ q.1.E := by rw [hgE]; exact hE
      have h2' : q.1.sets.length = 2 ^ q.1.s := by rw [hgs]; exact hlen'
      have h3' : ∀ s2 ∈ q.1.sets, s2.length = q.1.E := by
        intro s2 hs2
        rw [hgE]
        exact hsl' s2 hs2
      obtain ⟨⟨hgs2, hgE2, hgb2⟩, hlen2, hsl2, hcl2, hdb2⟩ :=
        ih q.1 q.2 p hE' h2' h3' hcl' hdb' hrun
      refine ⟨⟨?_, ?_, ?_⟩, ?_, ?_, hcl2, hdb2⟩
      · rw [hgs2, hgs]
      · rw [hgE2, hgE]
      · rw [hgb2, hgb]
      · rw [hlen2, hgs]
      · intro s2 hs2
        rw [hsl2 s2 hs2, hgE]

theorem process_record_counts (c : cache_t) (st : csim_stats) (r : AccessRecord)
    (q : cache_t × csim_stats) (hp : process_record c st r = some q) :
    (q.2.hit = st.hit + 1 ∧ q.2.miss = st.miss ∧ q.2.eviction = st.eviction) ∨
    (q.2.hit = st.hit ∧ q.2.miss = st.miss + 1 ∧
      (q.2.eviction = st.eviction ∨ q.2.eviction = st.eviction + 1)) := by
  by_cases hk : r.kind = 'L' ∨ r.kind = 'S'
  · rw [process_record_eq c st r hk] at hp
    cases hp
    rcases hhs : (hit_scan (tag_of r.address c.b c.s)
        (c.sets.getD (set_index_of r.address c.b c.s) [])).2 with - | i
    · rcases hfs : (fill_scan (tag_of r.address c.b c.s)
          (hit_scan (tag_of r.address c.b c.s)
            (c.sets.getD (set_index_of r.address c.b c.s) [])).1).2 with - | i
      · obtain ⟨db, de, hst⟩ := cache_sim_stats_evict r.kind
          (c.sets.getD (set_index_of r.address c.b c.s) [])
          (tag_of r.address c.b c.s) c.b st hhs hfs
        rw [hst]
        right
        simp
      · obtain ⟨db, hst⟩ := cache_sim_stats_fill r.kind
          (c.sets.getD (set_index_of r.address c.b c.s) [])
          (tag_of r.address c.b c.s) c.b st i hhs hfs
        rw [hst]
        right
        simp
    · obtain ⟨db, hst⟩ := cache_sim_stats_hit r.kind
        (c.sets.getD (set_index_of r.address c.b c.s) [])
        (tag_of r.address c.b c.s) c.b st i hhs
      rw [hst]
      left
      simp
  · rw [process_record_bad c st r hk] at hp
    cases hp

theorem run_trace_counts (t : List AccessRecord) :
    ∀ (c : cache_t) (st : csim_stats) (p : cache_t × csim_stats),
      st.eviction ≤ st.miss →
      run_trace c st t = some p →
      p.2.hit + p.2.miss = st.hit + st.miss + t.length ∧ p.2.eviction ≤ p.2.miss := by
  induction t with
  | nil =>
    intro c st p hev hrun
    simp only [run_trace, Option.some.injEq] at hrun
    subst hrun
    exact ⟨by simp, hev⟩
  | cons r rs ih =>
    intro c st p hev hrun
    simp only [run_trace] at hrun
    cases hpr : process_record c st r with
    | none => rw [hpr] at hrun; cases hrun
    | some q =>
      rw [hpr] at hrun
      rcases process_record_counts c st r q hpr with ⟨h1, h2, h3⟩ | ⟨h1, h2, h3⟩
      · obtain ⟨ihl, ihr⟩ := ih q.1 q.2 p (by omega) hrun
        refine ⟨?_, ihr⟩
        rw [ihl, h1, h2]
        simp only [List.length_cons]
        omega
      · obtain ⟨ihl, ihr⟩ := ih q.1 q.2 p (by omega) hrun
        refine ⟨?_, ihr⟩
        rw [ihl, h1, h2]
        simp only [List.length_cons]
        omega

theorem run_trace_bad_kind (pre : List AccessRecord) :
    ∀ (c : cache_t) (st : csim_stats) (r : AccessRecord) (rest : List AccessRecord),
      ¬(r.kind = 'L' ∨ r.kind = 'S') →
      run_trace c st (pre ++ r :: rest) = none := by
  induction pre with
  | nil =>
    intro c st r rest hk
    simp only [List.nil_append, run_trace]
    rw [process_record_bad c st r hk]
  | cons rr pres ih =>
    intro c st r rest hk
    simp only [List.cons_append, run_trace]
    cases hpr : process_record c st rr with
    | none => rfl
    | some q => exact ih q.1 q.2 r rest hk

theorem cache_init_sets_length (s E b : Nat) :
    (cache_init s E b).sets.length = 2 ^ s := by
  simp [cache_init]

theorem set_dirty_sum_replicate (B E : Nat) :
    set_dirty_sum B (List.replicate E line0) = 0 := by
  induction E with
  | zero => rfl
  | succ E ih =>
    rw [List.replicate_succ, set_dirty_sum_cons, ih]
    simp [line_dirty_bytes, line0]

theorem cache_dirty_sum_init (s E b : Nat) : cache_dirty_sum (cache_init s E b) = 0 := by
  simp [cache_dirty_sum, cache_init, List.map_replicate, set_dirty_sum_replicate,
    List.sum_replicate]

theorem clean_inv_replicate (E : Nat) : clean_inv (List.replicate E line0) := by
  intro j l hl hv
  rw [List.getElem?_replicate] at hl
  by_cases hj : j < E
  · rw [if_pos hj] at hl
    simp only [Option.some.injEq] at hl
    subst hl
    rfl
  · rw [if_neg hj] at hl
    cases hl

/-! ### Claim theorems -/

/-- C1 (code bug): the eviction path does not select the line with the
strictly maximum LRU counter, contradicting the declared policy of the
code (`line_t.LRU_counter` is documented as "evict the block with max
LRU counter").  With geometry `s=0, E=3, b=0`, after the trace
`L 0x0; L 0x1; L 0x2; L 0x0` the single set holds tags `[0, 1, 2]`, all
valid, with recency counters `[0, 3, 1]`: line 1 is the strict maximum.
The next access `L 0x3` must evict, and the claimed policy selects
line 1; the code instead replaces line 2 (the selection loop compares
every counter against line 0's counter without ever updating
`max_counter`, so it returns the last index exceeding line 0).  The
final conjunct shows the selection loop in isolation: on counters
`[2, 5, 3]` it returns index 2, not the maximum index 1. -/
theorem C1_eviction_victim_not_max :
    (run_trace (cache_init 0 3 0) stats0
        [⟨'L', 0, 0⟩, ⟨'L', 1, 0⟩, ⟨'L', 2, 0⟩, ⟨'L', 0, 0⟩]).map
      (fun p => ((p.1.sets.getD 0 []).map line_t.LRU_counter,
        (p.1.sets.getD 0 []).map line_t.valid,
        (p.1.sets.getD 0 []).map line_t.tag, p.2.eviction)) =
      some ([0, 3, 1], [true, true, true], [0, 1, 2], 0) ∧
    (run_trace (cache_init 0 3 0) stats0
        [⟨'L', 0, 0⟩, ⟨'L', 1, 0⟩, ⟨'L', 2, 0⟩, ⟨'L', 0, 0⟩, ⟨'L', 3, 0⟩]).map
      (fun p => ((p.1.sets.getD 0 []).map line_t.tag,
        (p.1.sets.getD 0 []).map line_t.LRU_counter, p.2.eviction)) =
      some ([0, 1, 3], [3, 6, 0], 1) ∧
    find_victim [⟨true, false, 0, 2⟩, ⟨true, false, 1, 5⟩, ⟨true, false, 2, 3⟩] = 2 := by
  decide

/-- C3 counterexample: the claimed scenario result `evictions = 1` is
wrong.  On geometry `s=1, E=1, b=0` with trace
`L 0x0; L 0x1; L 0x2; L 0x0`, the final `L 0x0` finds set 0 full and
holding tag 1, so it evicts as well: the code produces
`hits=0, misses=4, evictions=2`, not `(0, 4, 1)`. -/
theorem C3_counterexample_scenario :
    ¬((run_sim 1 1 0 [⟨'L', 0, 0⟩, ⟨'L', 1, 0⟩, ⟨'L', 2, 0⟩, ⟨'L', 0, 0⟩]).map
        (fun st => (st.hit, st.miss, st.eviction)) = some (0, 4, 1)) := by
  decide

/-- C3 (amended): the scenario yields `hits=0, misses=4, evictions=2`
(both `L 0x2` and the final `L 0x0` evict from set 0). -/
theorem C3_amended_scenario :
    (run_sim 1 1 0 [⟨'L', 0, 0⟩, ⟨'L', 1, 0⟩, ⟨'L', 2, 0⟩, ⟨'L', 0, 0⟩]).map
      (fun st => (st.hit, st.miss, st.eviction)) = some (0, 4, 2) := by
  decide

/-- C2 counterexample: on a miss the non-touched lines do not age by
exactly 1.  From the freshly initialized `s=0, E=2, b=0` cache, a single
load (a miss filling slot 0) leaves the LRU counters at `[0, 2]`: the
untouched line 1 aged by 2 (once in the hit scan, once more in the
empty-slot scan), not by 1. -/
theorem C2_counterexample_aging_not_one :
    (run_trace (cache_init 0 2 0) stats0 [⟨'L', 0, 0⟩]).map
        (fun p => (p.1.sets.getD 0 []).map line_t.LRU_counter) = some [0, 2] ∧
    (run_trace (cache_init 0 2 0) stats0 [⟨'L', 0, 0⟩]).map
        (fun p => (p.1.sets.getD 0 []).map line_t.LRU_counter) ≠ some [0, 1] := by
  decide

/-- C2 (amended): every access sets the touched line's LRU counter to 0
and ages every other line of the accessed set uniformly — by exactly 1
on a hit, by exactly 2 on a miss that fills an empty slot, and by
exactly 3 on a miss with eviction (the hit scan, the empty-slot scan and
the trailing `add_LRU_counter` calls each age the non-touched lines once
on the respective paths).  Lines of every other set are unchanged. -/
theorem C2_amended_uniform_aging :
    (∀ (a : Char) (ls : List line_t) (tag b : Nat) (st : csim_stats) (i j : Nat),
      (hit_scan tag ls).2 = some i →
      ((cache_sim a ls tag b st).1[j]?).map line_t.LRU_counter =
        (if j = i then (ls[j]?).map (fun _ => 0)
         else (ls[j]?).map (fun l => l.LRU_counter + 1))) ∧
    (∀ (a : Char) (ls : List line_t) (tag b : Nat) (st : csim_stats) (i j : Nat),
      (hit_scan tag ls).2 = none →
      (fill_scan tag (hit_scan tag ls).1).2 = some i →
      ((cache_sim a ls tag b st).1[j]?).map line_t.LRU_counter =
        (if j = i then (ls[j]?).map (fun _ => 0)
         else (ls[j]?).map (fun l => l.LRU_counter + 2))) ∧
    (∀ (a : Char) (ls : List line_t) (tag b : Nat) (st : csim_stats) (j : Nat),
      (hit_scan tag ls).2 = none →
      (fill_scan tag (hit_scan tag ls).1).2 = none →
      ((cache_sim a ls tag b st).1[j]?).map line_t.LRU_counter =
        (if j = find_victim (fill_scan tag (hit_scan tag ls).1).1 then
          (ls[j]?).map (fun _ => 0)
         else (ls[j]?).map (fun l => l.LRU_counter + 3))) ∧
    (∀ (c : cache_t) (st : csim_stats) (r : AccessRecord) (q : cache_t × csim_stats)
      (k : Nat),
      process_record c st r = some q →
      k ≠ set_index_of r.address c.b c.s →
      q.1.sets[k]? = c.sets[k]?) := by
  refine ⟨?_, ?_, ?_, ?_⟩
  · intro a ls tag b st i j h
    exact cache_sim_hit_lru a ls tag b st i h j
  · intro a ls tag b st i j h1 h2
    exact cache_sim_fill_lru a ls tag b st i h1 h2 j
  · intro a ls tag b st j h1 h2
    exact cache_sim_evict_lru a ls tag b st h1 h2 j
  · intro c st r q k hp hk
    by_cases hgood : r.kind = 'L' ∨ r.kind = 'S'
    · rw [process_record_eq c st r hgood] at hp
      cases hp
      simp only
      exact List.getElem?_set_ne (fun hh => hk hh.symm)
    · rw [process_record_bad c st r hgood] at hp
      cases hp

/-- Witness for C2 (amended): the four parts applied at concrete states:
a hit in a 2-line set ages the other line by 1; a fill ages the other
line by 2; an eviction ages the other line by 3; a record touching set 0
of a 2-set cache leaves set 1 unchanged. -/
theorem C2_amended_uniform_aging_w :
    ((cache_sim 'L' [⟨true, false, 9, 4⟩, ⟨true, false, 5, 7⟩] 5 0 stats0).1[0]?).map
        line_t.LRU_counter =
      (if (0 : Nat) = 1 then
        ((([⟨true, false, 9, 4⟩, ⟨true, false, 5, 7⟩] : List line_t))[0]?).map (fun _ => 0)
       else
        ((([⟨true, false, 9, 4⟩, ⟨true, false, 5, 7⟩] : List line_t))[0]?).map
          (fun l => l.LRU_counter + 1)) ∧
    ((cache_sim 'L' [⟨true, false, 9, 4⟩, ⟨false, false, 0, 0⟩] 5 0 stats0).1[0]?).map
        line_t.LRU_counter =
      (if (0 : Nat) = 1 then
        ((([⟨true, false, 9, 4⟩, ⟨false, false, 0, 0⟩] : List line_t))[0]?).map (fun _ => 0)
       else
        ((([⟨true, false, 9, 4⟩, ⟨false, false, 0, 0⟩] : List line_t))[0]?).map
          (fun l => l.LRU_counter + 2)) ∧
    ((cache_sim 'L' [⟨true, false, 3, 5⟩] 7 0 stats0).1[0]?).map line_t.LRU_counter =
      (if (0 : Nat) = find_victim (fill_scan 7 (hit_scan 7 [⟨true, false, 3, 5⟩]).1).1 then
        ((([⟨true, false, 3, 5⟩] : List line_t))[0]?).map (fun _ => 0)
       else
        ((([⟨true, false, 3, 5⟩] : List line_t))[0]?).map (fun l => l.LRU_counter + 3)) ∧
    ((⟨1, 1, 0, [[⟨true, false, 0, 0⟩], [⟨false, false, 0, 0⟩]]⟩ : cache_t).sets)[1]? =
      ((cache_init 1 1 0).sets)[1]? := by
  refine ⟨?_, ?_, ?_, ?_⟩
  · exact C2_amended_uniform_aging.1 'L' [⟨true, false, 9, 4⟩, ⟨true, false, 5, 7⟩] 5 0
      stats0 1 0 (by decide)
  · exact C2_amended_uniform_aging.2.1 'L' [⟨true, false, 9, 4⟩, ⟨false, false, 0, 0⟩] 5 0
      stats0 1 0 (by decide) (by decide)
  · exact C2_amended_uniform_aging.2.2.1 'L' [⟨true, false, 3, 5⟩] 7 0 stats0 0
      (by decide) (by decide)
  · exact C2_amended_uniform_aging.2.2.2 (cache_init 1 1 0) stats0 ⟨'L', 0, 0⟩
      (⟨1, 1, 0, [[⟨true, false, 0, 0⟩], [⟨false, false, 0, 0⟩]]⟩, ⟨0, 1, 0, 0, 0⟩) 1
      (by decide) (by decide)

/-- C9: within a single access, every line of the accessed set other
than the touched line (the hit line, the filled slot, or the eviction
victim) ages by one common amount `k` (1, 2 or 3 depending on the path),
so the relative recency order of the non-touched lines is preserved. -/
theorem C9_uniform_aging_preserves_order (a : Char) (ls : List line_t) (tag b : Nat)
    (st : csim_stats) (hne : ls ≠ []) :
    ∃ t k : Nat, t < ls.length ∧
      ((cache_sim a ls tag b st).1[t]?).map line_t.LRU_counter = some 0 ∧
      (∀ j, j ≠ t → ((cache_sim a ls tag b st).1[j]?).map line_t.LRU_counter =
        (ls[j]?).map (fun l => l.LRU_counter + k)) ∧
      (∀ j1 j2 x1 x2 y1 y2, j1 ≠ t → j2 ≠ t →
        ls[j1]? = some x1 → ls[j2]? = some x2 →
        (cache_sim a ls tag b st).1[j1]? = some y1 →
        (cache_sim a ls tag b st).1[j2]? = some y2 →
        (y1.LRU_counter ≤ y2.LRU_counter ↔ x1.LRU_counter ≤ x2.LRU_counter)) := by
  have main : ∃ t k : Nat, t < ls.length ∧
      ((cache_sim a ls tag b st).1[t]?).map line_t.LRU_counter = some 0 ∧
      (∀ j, j ≠ t → ((cache_sim a ls tag b st).1[j]?).map line_t.LRU_counter =
        (ls[j]?).map (fun l => l.LRU_counter + k)) := by
    rcases hhs : (hit_scan tag ls).2 with - | i
    · rcases hfs : (fill_scan tag (hit_scan tag ls).1).2 with - | i
      · refine ⟨find_victim (fill_scan tag (hit_scan tag ls).1).1, 3, ?_, ?_, ?_⟩
        · have hlen : (fill_scan tag (hit_scan tag ls).1).1.length = ls.length := by
            rw [fill_scan_length, hit_scan_length]
          have : (fill_scan tag (hit_scan tag ls).1).1 ≠ [] := by
            rw [← List.length_pos, hlen, List.length_pos]
            exact hne
          have := find_victim_lt _ this
          rwa [hlen] at this
        · have h := cache_sim_evict_lru a ls tag b st hhs hfs
            (find_victim (fill_scan tag (hit_scan tag ls).1).1)
          rw [if_pos rfl] at h
          rw [h]
          have hlt : find_victim (fill_scan tag (hit_scan tag ls).1).1 < ls.length := by
            have hlen : (fill_scan tag (hit_scan tag ls).1).1.length = ls.length := by
              rw [fill_scan_length, hit_scan_length]
            have hne2 : (fill_scan tag (hit_scan tag ls).1).1 ≠ [] := by
              rw [← List.length_pos, hlen, List.length_pos]
              exact hne
            have := find_victim_lt _ hne2
            rwa [hlen] at this
          rw [List.getElem?_eq_getElem hlt]
          rfl
        · intro j hj
          have h := cache_sim_evict_lru a ls tag b st hhs hfs j
          rwa [if_neg hj] at h
      · obtain ⟨hlen, -, -, -, -⟩ := fill_scan_some_get tag (hit_scan tag ls).1 i hfs
        rw [hit_scan_length] at hlen
        refine ⟨i, 2, hlen, ?_, ?_⟩
        · have h := cache_sim_fill_lru a ls tag b st i hhs hfs i
          rw [if_pos rfl] at h
          rw [h, List.getElem?_eq_getElem hlen]
          rfl
        · intro j hj
          have h := cache_sim_fill_lru a ls tag b st i hhs hfs j
          rwa [if_neg hj] at h
    · obtain ⟨hlen, -, -, -, -⟩ := hit_scan_some_get tag ls i hhs
      refine ⟨i, 1, hlen, ?_, ?_⟩
      · have h := cache_sim_hit_lru a ls tag b st i hhs i
        rw [if_pos rfl] at h
        rw [h, List.getElem?_eq_getElem hlen]
        rfl
      · intro j hj
        have h := cache_sim_hit_lru a ls tag b st i hhs j
        rwa [if_neg hj] at h
  obtain ⟨t, k, ht, h0, hk⟩ := main
  refine ⟨t, k, ht, h0, hk, ?_⟩
  intro j1 j2 x1 x2 y1 y2 hj1 hj2 hx1 hx2 hy1 hy2
  have e1 := hk j1 hj1
  have e2 := hk j2 hj2
  rw [hx1, hy1] at e1
  rw [hx2, hy2] at e2
  simp only [Option.map_some', Option.some.injEq] at e1 e2
  rw [e1, e2]
  omega

/-- Witness for C9: a direct-mapped set with one valid line, missed by a
new tag: the victim is line 0 and the conclusion is realized with
`t = 0`. -/
theorem C9_uniform_aging_preserves_order_w :
    ∃ t k : Nat, t < ([⟨true, false, 3, 5⟩] : List line_t).length ∧
      ((cache_sim 'L' [⟨true, false, 3, 5⟩] 7 0 stats0).1[t]?).map line_t.LRU_counter =
        some 0 ∧
      (∀ j, j ≠ t →
        ((cache_sim 'L' [⟨true, false, 3, 5⟩] 7 0 stats0).1[j]?).map line_t.LRU_counter =
          ((([⟨true, false, 3, 5⟩] : List line_t))[j]?).map (fun l => l.LRU_counter + k)) ∧
      (∀ j1 j2 x1 x2 y1 y2, j1 ≠ t → j2 ≠ t →
        (([⟨true, false, 3, 5⟩] : List line_t))[j1]? = some x1 →
        (([⟨true, false, 3, 5⟩] : List line_t))[j2]? = some x2 →
        (cache_sim 'L' [⟨true, false, 3, 5⟩] 7 0 stats0).1[j1]? = some y1 →
        (cache_sim 'L' [⟨true, false, 3, 5⟩] 7 0 stats0).1[j2]? = some y2 →
        (y1.LRU_counter ≤ y2.LRU_counter ↔ x1.LRU_counter ≤ x2.LRU_counter)) :=
  C9_uniform_aging_preserves_order 'L' [⟨true, false, 3, 5⟩] 7 0 stats0 (by decide)

/-- C4: after every fully processed trace prefix, the `dirty_bytes`
counter equals the independently recomputed sum of block sizes `2^b`
over the currently valid, currently dirty lines, and is therefore
bounded by the total capacity `2^s * E * 2^b`.  (It is trivially
non-negative as a natural number; the conservation equality shows the
eviction path's subtraction never underflows.)  The hypothesis
`1 ≤ E` mirrors the geometry precondition enforced by `main`, which
rejects `E <= 0`. -/
theorem C4_dirty_bytes_conservation (s E b : Nat) (t : List AccessRecord)
    (c : cache_t) (st : csim_stats) (hE : 1 ≤ E)
    (h : run_trace (cache_init s E b) stats0 t = some (c, st)) :
    st.dirty_bytes = cache_dirty_sum c ∧ st.dirty_bytes ≤ 2 ^ s * E * 2 ^ b := by
  obtain ⟨⟨hgs, hgE, hgb⟩, hlen, hsl, hcl, hdb⟩ :=
    run_trace_inv t (cache_init s E b) stats0 (c, st) hE (cache_init_sets_length s E b)
      (fun s2 hs2 => by
        have hrep : s2 = List.replicate E line0 := List.eq_of_mem_replicate hs2
        rw [hrep]
        simp [cache_init])
      (fun s2 hs2 => by
        have hrep : s2 = List.replicate E line0 := List.eq_of_mem_replicate hs2
        rw [hrep]
        exact clean_inv_replicate E)
      (by simp [stats0, cache_dirty_sum_init])
      h
  refine ⟨hdb, ?_⟩
  have hb : c.b = b := hgb
  rw [hdb]
  unfold cache_dirty_sum
  have hbound : ∀ x ∈ c.sets.map (set_dirty_sum (2 ^ c.b)), x ≤ E * 2 ^ b := by
    intro x hx
    obtain ⟨s2, hs2, rfl⟩ := List.mem_map.mp hx
    have h2 : s2.length = E := hsl s2 hs2
    calc set_dirty_sum (2 ^ c.b) s2 ≤ s2.length * 2 ^ c.b := set_dirty_sum_le (2 ^ c.b) s2
      _ = E * 2 ^ b := by rw [h2, hb]
  have hsum := List.sum_le_card_nsmul (c.sets.map (set_dirty_sum (2 ^ c.b))) (E * 2 ^ b) hbound
  rw [List.length_map] at hsum
  have hclen : c.sets.length = 2 ^ s := hlen
  rw [hclen, smul_eq_mul] at hsum
  calc (c.sets.map (set_dirty_sum (2 ^ c.b))).sum ≤ 2 ^ s * (E * 2 ^ b) := hsum
    _ = 2 ^ s * E * 2 ^ b := by ring

/-- Witness for C4: geometry `s=0, E=1, b=0`, trace `S 0x0`: afterwards
`dirty_bytes = 1`, which equals the dirty sum of the single (valid,
dirty) resident line and is within the capacity of 1 byte. -/
theorem C4_dirty_bytes_conservation_w :
    (⟨0, 1, 0, 1, 0⟩ : csim_stats).dirty_bytes =
      cache_dirty_sum ⟨0, 1, 0, [[⟨true, true, 0, 0⟩]]⟩ ∧
    (⟨0, 1, 0, 1, 0⟩ : csim_stats).dirty_bytes ≤ 2 ^ 0 * 1 * 2 ^ 0 :=
  C4_dirty_bytes_conservation 0 1 0 [⟨'S', 0, 0⟩] ⟨0, 1, 0, [[⟨true, true, 0, 0⟩]]⟩
    ⟨0, 1, 0, 1, 0⟩ (by decide) (by decide)

/-- C7: after every fully processed trace prefix, `hits + misses` equals
the number of records processed and `evictions ≤ misses`. -/
theorem C7_hit_miss_partition (s E b : Nat) (t : List AccessRecord)
    (c : cache_t) (st : csim_stats)
    (h : run_trace (cache_init s E b) stats0 t = some (c, st)) :
    st.hit + st.miss = t.length ∧ st.eviction ≤ st.miss := by
  have hres := run_trace_counts t (cache_init s E b) stats0 (c, st) (Nat.le_refl 0) h
  simpa [stats0] using hres

/-- Witness for C7: the one-record trace `S 0x0` on a direct-mapped
1-set cache gives `hits + misses = 1` and `evictions = 0 ≤ 1 = misses`. -/
theorem C7_hit_miss_partition_w :
    (⟨0, 1, 0, 1, 0⟩ : csim_stats).hit + (⟨0, 1, 0, 1, 0⟩ : csim_stats).miss =
      ([⟨'S', 0, 0⟩] : List AccessRecord).length ∧
    (⟨0, 1, 0, 1, 0⟩ : csim_stats).eviction ≤ (⟨0, 1, 0, 1, 0⟩ : csim_stats).miss :=
  C7_hit_miss_partition 0 1 0 [⟨'S', 0, 0⟩] ⟨0, 1, 0, [[⟨true, true, 0, 0⟩]]⟩
    ⟨0, 1, 0, 1, 0⟩ (by decide)

/-- C8: a record whose kind is neither `L` nor `S` makes the driver halt
with an error (`none`): no statistics are produced, regardless of how
many records preceded the malformed one or what follows it. -/
theorem C8_malformed_kind_halts (s E b : Nat) (pre rest : List AccessRecord)
    (r : AccessRecord) (h1 : r.kind ≠ 'L') (h2 : r.kind ≠ 'S') :
    run_sim s E b (pre ++ r :: rest) = none := by
  unfold run_sim
  rw [run_trace_bad_kind pre (cache_init s E b) stats0 r rest
    (by intro hc; rcases hc with hc | hc; exact h1 hc; exact h2 hc)]
  rfl

/-- Witness for C8: a trace with a well-formed load, then a record of
kind `M`, then another load, produces no statistics. -/
theorem C8_malformed_kind_halts_w :
    run_sim 0 1 0 ([⟨'L', 0, 0⟩] ++ (⟨'M', 1, 0⟩ : AccessRecord) :: [⟨'L', 2, 0⟩]) = none :=
  C8_malformed_kind_halts 0 1 0 [⟨'L', 0, 0⟩] [⟨'L', 2, 0⟩] ⟨'M', 1, 0⟩
    (by decide) (by decide)

/-- C5 counterexample: the middle conjunct of the claim — that a Store
hitting an already dirty line "changes no counter" — is false: the hit
counter changes.  With `s=0, E=1, b=0`, after `S 0x0` the second
`S 0x0` raises `hits` from 0 to 1 (the dirty accounting is indeed
unchanged, but `hits` is a counter and it moves). -/
theorem C5_counterexample_second_store :
    (run_sim 0 1 0 [⟨'S', 0, 0⟩, ⟨'S', 0, 0⟩]).map csim_stats.hit ≠
      (run_sim 0 1 0 [⟨'S', 0, 0⟩]).map csim_stats.hit := by
  decide

/-- C5 (amended): the write-back lifecycle, with the middle conjunct
weakened to "changes nothing except the hit counter (and recency)":
(a) a Store hitting a clean line marks it dirty and adds exactly `2^b`
to `dirty_bytes`; (b) a Store hitting an already dirty line changes only
`hits` (by one) among the five counters, and no dirty bit of the set;
(c) an eviction of a dirty line by a Load adds `2^b` to
`dirty_evictions` and removes `2^b` from `dirty_bytes` (the bound
`2^b ≤ dirty_bytes` holds on every reachable state by C4). -/
theorem C5_amended_write_back :
    (∀ (ls : List line_t) (tag b : Nat) (st : csim_stats) (i : Nat) (z : line_t),
      (hit_scan tag ls).2 = some i → ls[i]? = some z → z.dirty_bit = false →
      (cache_sim 'S' ls tag b st).2.dirty_bytes = st.dirty_bytes + 2 ^ b ∧
      ((cache_sim 'S' ls tag b st).1[i]?).map line_t.dirty_bit = some true) ∧
    (∀ (ls : List line_t) (tag b : Nat) (st : csim_stats) (i : Nat) (z : line_t),
      (hit_scan tag ls).2 = some i → ls[i]? = some z → z.dirty_bit = true →
      (cache_sim 'S' ls tag b st).2 = { st with hit := st.hit + 1 } ∧
      (∀ j : Nat, ((cache_sim 'S' ls tag b st).1[j]?).map line_t.dirty_bit =
        (ls[j]?).map line_t.dirty_bit)) ∧
    (∀ (ls : List line_t) (tag b : Nat) (st : csim_stats) (z : line_t),
      (hit_scan tag ls).2 = none →
      (fill_scan tag (hit_scan tag ls).1).2 = none →
      ls[(find_victim (fill_scan tag (hit_scan tag ls).1).1)]? = some z →
      z.dirty_bit = true → 2 ^ b ≤ st.dirty_bytes →
      (cache_sim 'L' ls tag b st).2.dirty_evictions = st.dirty_evictions + 2 ^ b ∧
      (cache_sim 'L' ls tag b st).2.dirty_bytes + 2 ^ b = st.dirty_bytes) := by
  refine ⟨?_, ?_, ?_⟩
  · intro ls tag b st i z hh hz hzd
    have hd2 : ((add_LRU_counter (hit_scan tag ls).1 (i + 1) ls.length)[i]?).map
        line_t.dirty_bit = (ls[i]?).map line_t.dirty_bit :=
      (add_LRU_counter_dirty (hit_scan tag ls).1 (i + 1) ls.length i).trans
        (hit_scan_dirty tag ls i)
    rw [hz] at hd2
    cases hw : (add_LRU_counter (hit_scan tag ls).1 (i + 1) ls.length)[i]? with
    | none => rw [hw] at hd2; simp at hd2
    | some w =>
      rw [hw] at hd2
      simp only [Option.map_some', Option.some.injEq] at hd2
      have hnth : nth (add_LRU_counter (hit_scan tag ls).1 (i + 1) ls.length) i = w := by
        rw [nth_eq_getD, hw]
        rfl
      rw [cache_sim_hit_eq 'S' ls tag b st i hh]
      rw [if_pos ⟨rfl, by rw [hnth, hd2]; exact hzd⟩]
      refine ⟨rfl, ?_⟩
      rw [update_at_get, if_pos rfl, hw]
      rfl
  · intro ls tag b st i z hh hz hzd
    have hd2 : ((add_LRU_counter (hit_scan tag ls).1 (i + 1) ls.length)[i]?).map
        line_t.dirty_bit = (ls[i]?).map line_t.dirty_bit :=
      (add_LRU_counter_dirty (hit_scan tag ls).1 (i + 1) ls.length i).trans
        (hit_scan_dirty tag ls i)
    rw [hz] at hd2
    cases hw : (add_LRU_counter (hit_scan tag ls).1 (i + 1) ls.length)[i]? with
    | none => rw [hw] at hd2; simp at hd2
    | some w =>
      rw [hw] at hd2
      simp only [Option.map_some', Option.some.injEq] at hd2
      have hnth : nth (add_LRU_counter (hit_scan tag ls).1 (i + 1) ls.length) i = w := by
        rw [nth_eq_getD, hw]
        rfl
      rw [cache_sim_hit_eq 'S' ls tag b st i hh]
      rw [if_neg (by
        rintro ⟨-, hcc⟩
        rw [hnth, hd2, hzd] at hcc
        cases hcc)]
      refine ⟨rfl, ?_⟩
      intro j
      exact (add_LRU_counter_dirty (hit_scan tag ls).1 (i + 1) ls.length j).trans
        (hit_scan_dirty tag ls j)
  · intro ls tag b st z h1 h2 hz hzd hle
    have hd4 := evict_L4_dirty tag ls (find_victim (fill_scan tag (hit_scan tag ls).1).1)
    rw [hz] at hd4
    cases hw : (add_LRU_counter
        (add_LRU_counter
          (update_at (fun l => { l with tag := tag, LRU_counter := 0 })
            (find_victim (fill_scan tag (hit_scan tag ls).1).1)
            (fill_scan tag (hit_scan tag ls).1).1)
          0 (find_victim (fill_scan tag (hit_scan tag ls).1).1))
        (find_victim (fill_scan tag (hit_scan tag ls).1).1 + 1)
          ls.length)[(find_victim (fill_scan tag (hit_scan tag ls).1).1)]? with
    | none => rw [hw] at hd4; simp at hd4
    | some w =>
      rw [hw] at hd4
      simp only [Option.map_some', Option.some.injEq] at hd4
      have hwd : w.dirty_bit = true := by rw [hd4, hzd]
      have hnth : nth (add_LRU_counter
          (add_LRU_counter
            (update_at (fun l => { l with tag := tag, LRU_counter := 0 })
              (find_victim (fill_scan tag (hit_scan tag ls).1).1)
              (fill_scan tag (hit_scan tag ls).1).1)
            0 (find_victim (fill_scan tag (hit_scan tag ls).1).1))
          (find_victim (fill_scan tag (hit_scan tag ls).1).1 + 1) ls.length)
          (find_victim (fill_scan tag (hit_scan tag ls).1).1) = w := by
        rw [nth_eq_getD, hw]
        rfl
      rw [cache_sim_evict_eq 'L' ls tag b st h1 h2]
      simp only
      rw [if_neg (by rintro ⟨-, hLS⟩; exact absurd hLS (by decide))]
      rw [if_pos (by rw [hnth]; exact hwd)]
      rw [if_pos trivial]
      refine ⟨rfl, ?_⟩
      dsimp only
      omega

/-- Witness for C5 (amended): a Store hit on a clean line adds one dirty
byte and sets the bit; a Store hit on the dirty line changes only the
hit counter and leaves the dirty bit; a Load evicting the dirty line
moves the byte to `dirty_evictions`. -/
theorem C5_amended_write_back_w :
    ((cache_sim 'S' [⟨true, false, 0, 5⟩] 0 0 stats0).2.dirty_bytes =
        stats0.dirty_bytes + 2 ^ 0 ∧
      ((cache_sim 'S' [⟨true, false, 0, 5⟩] 0 0 stats0).1[0]?).map line_t.dirty_bit =
        some true) ∧
    ((cache_sim 'S' [⟨true, true, 0, 5⟩] 0 0 ⟨1, 1, 0, 1, 0⟩).2 =
        { (⟨1, 1, 0, 1, 0⟩ : csim_stats) with hit := (⟨1, 1, 0, 1, 0⟩ : csim_stats).hit + 1 }) ∧
    ((cache_sim 'L' [⟨true, true, 3, 5⟩] 7 0 ⟨1, 1, 0, 1, 0⟩).2.dirty_evictions =
        (⟨1, 1, 0, 1, 0⟩ : csim_stats).dirty_evictions + 2 ^ 0 ∧
      (cache_sim 'L' [⟨true, true, 3, 5⟩] 7 0 ⟨1, 1, 0, 1, 0⟩).2.dirty_bytes + 2 ^ 0 =
        (⟨1, 1, 0, 1, 0⟩ : csim_stats).dirty_bytes) :=
  ⟨C5_amended_write_back.1 [⟨true, false, 0, 5⟩] 0 0 stats0 0 ⟨true, false, 0, 5⟩
      (by decide) (by decide) (by decide),
    (C5_amended_write_back.2.1 [⟨true, true, 0, 5⟩] 0 0 ⟨1, 1, 0, 1, 0⟩ 0 ⟨true, true, 0, 5⟩
      (by decide) (by decide) (by decide)).1,
    C5_amended_write_back.2.2 [⟨true, true, 3, 5⟩] 7 0 ⟨1, 1, 0, 1, 0⟩ ⟨true, true, 3, 5⟩
      (by decide) (by decide) (by decide) (by decide) (by decide)⟩

/-- C6: on every eviction whose victim is dirty, `dirty_evictions` grows
by exactly `2^b` whether the evicting access is a Load or a Store, and
the victim's `2^b` bytes leave `dirty_bytes` net of the bytes added for
the newly installed block (`2^b` when the access is a Store that dirties
the new block, `0` for a Load). -/
theorem C6_dirty_eviction_accounting (a : Char) (ls : List line_t) (tag b : Nat)
    (st : csim_stats) (z : line_t)
    (ha : a = 'L' ∨ a = 'S')
    (h1 : (hit_scan tag ls).2 = none)
    (h2 : (fill_scan tag (hit_scan tag ls).1).2 = none)
    (hz : ls[(find_victim (fill_scan tag (hit_scan tag ls).1).1)]? = some z)
    (hzd : z.dirty_bit = true) (hle : 2 ^ b ≤ st.dirty_bytes) :
    (cache_sim a ls tag b st).2.dirty_evictions = st.dirty_evictions + 2 ^ b ∧
    (cache_sim a ls tag b st).2.dirty_bytes + 2 ^ b =
      st.dirty_bytes + (if a = 'S' then 2 ^ b else 0) := by
  have hd4 := evict_L4_dirty tag ls (find_victim (fill_scan tag (hit_scan tag ls).1).1)
  rw [hz] at hd4
  cases hw : (add_LRU_counter
      (add_LRU_counter
        (update_at (fun l => { l with tag := tag, LRU_counter := 0 })
          (find_victim (fill_scan tag (hit_scan tag ls).1).1)
          (fill_scan tag (hit_scan tag ls).1).1)
        0 (find_victim (fill_scan tag (hit_scan tag ls).1).1))
      (find_victim (fill_scan tag (hit_scan tag ls).1).1 + 1)
        ls.length)[(find_victim (fill_scan tag (hit_scan tag ls).1).1)]? with
  | none => rw [hw] at hd4; simp at hd4
  | some w =>
    rw [hw] at hd4
    simp only [Option.map_some', Option.some.injEq] at hd4
    have hwd : w.dirty_bit = true := by rw [hd4, hzd]
    have hnth : nth (add_LRU_counter
        (add_LRU_counter
          (update_at (fun l => { l with tag := tag, LRU_counter := 0 })
            (find_victim (fill_scan tag (hit_scan tag ls).1).1)
            (fill_scan tag (hit_scan tag ls).1).1)
          0 (find_victim (fill_scan tag (hit_scan tag ls).1).1))
        (find_victim (fill_scan tag (hit_scan tag ls).1).1 + 1) ls.length)
        (find_victim (fill_scan tag (hit_scan tag ls).1).1) = w := by
      rw [nth_eq_getD, hw]
      rfl
    rcases ha with rfl | rfl
    · rw [cache_sim_evict_eq 'L' ls tag b st h1 h2]
      simp only
      rw [if_neg (by rintro ⟨-, hLS⟩; exact absurd hLS (by decide))]
      rw [if_pos (by rw [hnth]; exact hwd)]
      rw [if_pos trivial]
      refine ⟨rfl, ?_⟩
      dsimp only
      rw [if_neg (show ¬('L' : Char) = 'S' by decide)]
      omega
    · rw [cache_sim_evict_eq 'S' ls tag b st h1 h2]
      simp only
      rw [if_neg (by
        rintro ⟨hcc, -⟩
        rw [hnth, hwd] at hcc
        cases hcc)]
      rw [if_pos (by rw [hnth]; exact hwd)]
      rw [if_neg (show ¬('S' : Char) = 'L' by decide)]
      rw [if_pos trivial]
      refine ⟨rfl, ?_⟩
      dsimp only
      rw [if_pos trivial]

/-- Witness for C6: the dirty single-line set evicted by a Load and by a
Store: `dirty_evictions` grows by 1 in both cases; `dirty_bytes` drops
by 1 on the Load and is unchanged on the Store. -/
theorem C6_dirty_eviction_accounting_w :
    ((cache_sim 'L' [⟨true, true, 3, 5⟩] 7 0 ⟨0, 0, 0, 1, 0⟩).2.dirty_evictions =
        (⟨0, 0, 0, 1, 0⟩ : csim_stats).dirty_evictions + 2 ^ 0 ∧
      (cache_sim 'L' [⟨true, true, 3, 5⟩] 7 0 ⟨0, 0, 0, 1, 0⟩).2.dirty_bytes + 2 ^ 0 =
        (⟨0, 0, 0, 1, 0⟩ : csim_stats).dirty_bytes +
          (if ('L' : Char) = 'S' then 2 ^ 0 else 0)) ∧
    ((cache_sim 'S' [⟨true, true, 3, 5⟩] 7 0 ⟨0, 0, 0, 1, 0⟩).2.dirty_evictions =
        (⟨0, 0, 0, 1, 0⟩ : csim_stats).dirty_evictions + 2 ^ 0 ∧
      (cache_sim 'S' [⟨true, true, 3, 5⟩] 7 0 ⟨0, 0, 0, 1, 0⟩).2.dirty_bytes + 2 ^ 0 =
        (⟨0, 0, 0, 1, 0⟩ : csim_stats).dirty_bytes +
          (if ('S' : Char) = 'S' then 2 ^ 0 else 0)) :=
  ⟨C6_dirty_eviction_accounting 'L' [⟨true, true, 3, 5⟩] 7 0 ⟨0, 0, 0, 1, 0⟩
      ⟨true, true, 3, 5⟩ (Or.inl rfl) (by decide) (by decide) (by decide) (by decide)
      (by decide),
    C6_dirty_eviction_accounting 'S' [⟨true, true, 3, 5⟩] 7 0 ⟨0, 0, 0, 1, 0⟩
      ⟨true, true, 3, 5⟩ (Or.inr rfl) (by decide) (by decide) (by decide) (by decide)
      (by decide)⟩

/-- C10: valid bits are monotone over a run.  Every line of a freshly
constructed cache is invalid; processing any well-formed record never
clears a valid bit; and whenever a line goes from invalid to valid the
access was a miss that filled an empty slot (the miss counter grew by
one and the eviction counter did not move, which excludes both the hit
path and the eviction path). -/
theorem C10_valid_monotone :
    (∀ (s E b : Nat), ∀ s2 ∈ (cache_init s E b).sets, ∀ l ∈ s2, l.valid = false) ∧
    (∀ (c : cache_t) (st : csim_stats) (r : AccessRecord) (q : cache_t × csim_stats)
      (i j : Nat) (x y : line_t),
      process_record c st r = some q →
      (c.sets.getD i [])[j]? = some x →
      (q.1.sets.getD i [])[j]? = some y →
      (x.valid = true → y.valid = true) ∧
      (x.valid = false → y.valid = true →
        q.2.miss = st.miss + 1 ∧ q.2.eviction = st.eviction)) := by
  constructor
  · intro s E b s2 hs2 l hl
    have hrep : s2 = List.replicate E line0 := List.eq_of_mem_replicate hs2
    rw [hrep] at hl
    have : l = line0 := List.eq_of_mem_replicate hl
    rw [this]
    rfl
  · intro c st r q i j x y hp hx hy
    by_cases hk : r.kind = 'L' ∨ r.kind = 'S'
    · rw [process_record_eq c st r hk] at hp
      cases hp
      by_cases hik : i = set_index_of r.address c.b c.s
      · rw [hik] at hx hy
        by_cases hilen : set_index_of r.address c.b c.s < c.sets.length
        · have hq : ((c.sets.set (set_index_of r.address c.b c.s)
              (cache_sim r.kind (c.sets.getD (set_index_of r.address c.b c.s) [])
                (tag_of r.address c.b c.s) c.b st).1).getD
                  (set_index_of r.address c.b c.s) []) =
              (cache_sim r.kind (c.sets.getD (set_index_of r.address c.b c.s) [])
                (tag_of r.address c.b c.s) c.b st).1 := by
            rw [List.getD_eq_getElem?_getD, List.getElem?_set_self hilen]
            rfl
          simp only at hy
          rw [hq] at hy
          rcases hhs : (hit_scan (tag_of r.address c.b c.s)
              (c.sets.getD (set_index_of r.address c.b c.s) [])).2 with - | hidx
          · rcases hfs : (fill_scan (tag_of r.address c.b c.s)
                (hit_scan (tag_of r.address c.b c.s)
                  (c.sets.getD (set_index_of r.address c.b c.s) [])).1).2 with - | fidx
            · -- eviction path: valid bits are untouched
              have hv := cache_sim_evict_valid r.kind
                (c.sets.getD (set_index_of r.address c.b c.s) [])
                (tag_of r.address c.b c.s) c.b st hhs hfs j
              rw [hy, hx] at hv
              simp only [Option.map_some', Option.some.injEq] at hv
              constructor
              · intro hxv
                rw [hv, hxv]
              · intro hxv hyv
                rw [hv, hxv] at hyv
                cases hyv
            · -- fill path: a flip happens only at the filled slot of this miss
              have hv := cache_sim_fill_valid r.kind
                (c.sets.getD (set_index_of r.address c.b c.s) [])
                (tag_of r.address c.b c.s) c.b st fidx hhs hfs j
              rw [hy, hx] at hv
              obtain ⟨db, hst⟩ := cache_sim_stats_fill r.kind
                (c.sets.getD (set_index_of r.address c.b c.s) [])
                (tag_of r.address c.b c.s) c.b st fidx hhs hfs
              constructor
              · intro hxv
                by_cases hjf : j = fidx
                · rw [if_pos hjf] at hv
                  simp only [Option.map_some', Option.some.injEq] at hv
                  exact hv
                · rw [if_neg hjf] at hv
                  simp only [Option.map_some', Option.some.injEq] at hv
                  rw [hv, hxv]
              · rintro - -
                constructor
                · simp only [hst]
                · simp only [hst]
          · -- hit path: valid bits are untouched
            have hv := cache_sim_hit_valid r.kind
              (c.sets.getD (set_index_of r.address c.b c.s) [])
              (tag_of r.address c.b c.s) c.b st hidx hhs j
            rw [hy, hx] at hv
            simp only [Option.map_some', Option.some.injEq] at hv
            constructor
            · intro hxv
              rw [hv, hxv]
            · intro hxv hyv
              rw [hv, hxv] at hyv
              cases hyv
        · have hq2 : c.sets.getD (set_index_of r.address c.b c.s) [] = [] := by
            rw [List.getD_eq_getElem?_getD, List.getElem?_eq_none_iff.mpr (by omega)]
            rfl
          rw [hq2] at hx
          simp at hx
      · have hq : ((c.sets.set (set_index_of r.address c.b c.s)
            (cache_sim r.kind (c.sets.getD (set_index_of r.address c.b c.s) [])
              (tag_of r.address c.b c.s) c.b st).1).getD i []) = c.sets.getD i [] := by
          rw [List.getD_eq_getElem?_getD, List.getElem?_set_ne (fun hh => hik hh.symm),
            ← List.getD_eq_getElem?_getD]
        simp only at hy
        rw [hq, hx] at hy
        simp only [Option.some.injEq] at hy
        subst hy
        exact ⟨fun hxv => hxv, fun hxv hyv => absurd hyv (by rw [hxv]; exact Bool.false_ne_true)⟩
    · rw [process_record_bad c st r hk] at hp
      cases hp

/-- Witness for C10: the lone line of a fresh 1-set, 1-way cache is
invalid; the first load flips it to valid, and that access is indeed a
miss without eviction. -/
theorem C10_valid_monotone_w :
    line0.valid = false ∧
    ((line0.valid = true → (⟨true, false, 0, 0⟩ : line_t).valid = true) ∧
      (line0.valid = false → (⟨true, false, 0, 0⟩ : line_t).valid = true →
        (⟨0, 1, 0, 0, 0⟩ : csim_stats).miss = stats0.miss + 1 ∧
          (⟨0, 1, 0, 0, 0⟩ : csim_stats).eviction = stats0.eviction)) :=
  ⟨C10_valid_monotone.1 0 1 0 [line0] (by decide) line0 (by decide),
    C10_valid_monotone.2 (cache_init 0 1 0) stats0 ⟨'L', 0, 0⟩
      (⟨0, 1, 0, [[⟨true, false, 0, 0⟩]]⟩, ⟨0, 1, 0, 0, 0⟩) 0 0 line0 ⟨true, false, 0, 0⟩
      (by decide) (by decide) (by decide)⟩

end CacheLab
